import Mathlib

/-!
Verification of the schema-driven mock-API engine (Flask drafts).

The development shallowly embeds the Python sources:
* `PyVal` models Python runtime JSON-ish values (dict/list/str/int/float/bool/None);
  `pyEq` models Python `==` on such values (numeric cross-type equality,
  order-insensitive dict comparison).
* `SchemaValidator.validate_type` / `validate_schema` embed
  src/schema_validator.py.
* `validate_request_body` embeds OpenAPIFlask.validate_request_body from
  src/app.py.
* `normalize_path`, `register_endpoint`, `get_all_endpoints`, `get_endpoint`,
  `update_endpoint`, `delete_all_endpoints`, `delete_endpoint`,
  `handle_dynamic_request_response` embed the registry routes of
  src/generic.py (uuid / datetime.now values are injected as parameters;
  the on-disk yaml store is passed as explicit state).
* `test_register_endpoint` embeds register_endpoint from src/test.py.
* `AppHandler.create` / `update` / `delete` embed GenericAPIHandler of
  src/app.py.
* `resolve` and `synthesize` are modelled from the spec (SchemaResolver and
  ValueSynthesizer have no implementation inside the repository sources).
-/

/-- Python runtime values as produced by `request.get_json()` / yaml loads:
None, bool, int, float (modelled as a rational), str, list, dict
(dict modelled as an association list; Python dicts have unique keys,
captured by `wfVal`). -/
inductive PyVal where
  | null : PyVal
  | bool (b : Bool) : PyVal
  | int (n : Int) : PyVal
  | num (q : ℚ) : PyVal
  | str (s : String) : PyVal
  | arr (xs : List PyVal) : PyVal
  | obj (fs : List (String × PyVal)) : PyVal

/-- Association-list lookup, modelling Python `d[k]` / `d.get(k)` on the
dict representation (first binding wins; Python dicts have unique keys). -/
def lookupA {κ α : Type} [BEq κ] (k : κ) : List (κ × α) → Option α
  | [] => none
  | (k', v) :: rest => if k' == k then some v else lookupA k rest

/-- No two bindings share a key — the invariant of every Python dict. -/
def noDupKeys {κ α : Type} [BEq κ] : List (κ × α) → Bool
  | [] => true
  | (k, _) :: fs => !(fs.any (fun kv => kv.1 == k)) && noDupKeys fs

/-- `d[k] = v` on the dict representation: replace the first binding in
place if the key exists (Python dicts keep insertion order on updates),
append otherwise. -/
def setKey {κ α : Type} [BEq κ] : List (κ × α) → κ → α → List (κ × α)
  | [], k, v => [(k, v)]
  | (k', w) :: rest, k, v =>
      if k' == k then (k', v) :: rest else (k', w) :: setKey rest k v

/-- `del d[k]` on the dict representation (removes the first binding; a
Python dict has at most one). -/
def removeKey {κ α : Type} [BEq κ] : List (κ × α) → κ → List (κ × α)
  | [], _ => []
  | (k', w) :: rest, k => if k' == k then rest else (k', w) :: removeKey rest k

mutual
/-- Python `==` on runtime values: `True == 1`, `1 == 1.0`, lists compare
pointwise, dicts compare as key-value maps (order-insensitive). -/
def pyEq : PyVal → PyVal → Bool
  | .null, .null => true
  | .bool a, .bool b => a == b
  | .bool a, .int n => (if a then (1 : Int) else 0) == n
  | .bool a, .num q => (if a then (1 : ℚ) else 0) == q
  | .int m, .bool b => m == (if b then (1 : Int) else 0)
  | .int m, .int n => m == n
  | .int m, .num q => (m : ℚ) == q
  | .num p, .bool b => p == (if b then (1 : ℚ) else 0)
  | .num p, .int n => p == (n : ℚ)
  | .num p, .num q => p == q
  | .str a, .str b => a == b
  | .arr xs, .arr ys => pyEqList xs ys
  | .obj fs, .obj gs =>
      pyEqFields fs gs && gs.all (fun kv => fs.any (fun kv2 => kv2.1 == kv.1))
  | _, _ => false

/-- Pointwise Python `==` on lists (False on length mismatch). -/
def pyEqList : List PyVal → List PyVal → Bool
  | [], [] => true
  | x :: xs, y :: ys => pyEq x y && pyEqList xs ys
  | _, _ => false

/-- Every binding of the first dict is matched (by Python `==`) in the
second; together with the key-containment check in `pyEq` this is Python
dict equality. -/
def pyEqFields : List (String × PyVal) → List (String × PyVal) → Bool
  | [], _ => true
  | (k, v) :: fs, gs =>
      (match lookupA k gs with
       | some w => pyEq v w
       | none => false) && pyEqFields fs gs
end

mutual
/-- Well-formedness of a runtime value: all nested dicts have unique keys
(true of every value Python's json/yaml loaders can produce). -/
def wfVal : PyVal → Bool
  | .arr xs => wfList xs
  | .obj fs => noDupKeys fs && wfFields fs
  | _ => true

def wfList : List PyVal → Bool
  | [] => true
  | x :: xs => wfVal x && wfList xs

def wfFields : List (String × PyVal) → Bool
  | [] => true
  | (_, v) :: fs => wfVal v && wfFields fs
end

theorem lookupA_of_nodup {κ α : Type} [BEq κ] [LawfulBEq κ]
    {fs : List (κ × α)} {k : κ}
    {v : α} (hnd : noDupKeys fs = true) (hm : (k, v) ∈ fs) :
    lookupA k fs = some v := by
  induction fs with
  | nil => cases hm
  | cons kv rest ih =>
    obtain ⟨k', v'⟩ := kv
    simp only [noDupKeys, Bool.and_eq_true, Bool.not_eq_true'] at hnd
    rcases List.mem_cons.mp hm with h | h
    · cases h
      simp [lookupA]
    · have hk : k' ≠ k := by
        intro he
        subst he
        have : rest.any (fun kv => kv.1 == k') = true :=
          List.any_eq_true.mpr ⟨(k', v), h, by simp⟩
        rw [this] at hnd
        exact absurd hnd.1 (by simp)
      have hbeq : (k' == k) = false := beq_eq_false_iff_ne.mpr hk
      simp only [lookupA, hbeq, Bool.false_eq_true, if_false]
      exact ih hnd.2 h

theorem pyEqList_self {xs : List PyVal}
    (h : ∀ x ∈ xs, pyEq x x = true) : pyEqList xs xs = true := by
  induction xs with
  | nil => rfl
  | cons x rest ih =>
    simp only [pyEqList, Bool.and_eq_true]
    exact ⟨h x (List.mem_cons_self x rest),
      ih (fun y hy => h y (List.mem_cons_of_mem x hy))⟩

theorem pyEqFields_full {fs gs : List (String × PyVal)}
    (h : ∀ kv ∈ fs, ∃ w, lookupA kv.1 gs = some w ∧ pyEq kv.2 w = true) :
    pyEqFields fs gs = true := by
  induction fs with
  | nil => rfl
  | cons kv rest ih =>
    obtain ⟨k, v⟩ := kv
    obtain ⟨w, hw, hpe⟩ := h (k, v) (List.mem_cons_self _ _)
    simp only [pyEqFields, hw, Bool.and_eq_true]
    exact ⟨hpe, ih (fun kv hkv => h kv (List.mem_cons_of_mem _ hkv))⟩

theorem wfList_mem {xs : List PyVal} (h : wfList xs = true) {x : PyVal}
    (hx : x ∈ xs) : wfVal x = true := by
  induction xs with
  | nil => cases hx
  | cons y rest ih =>
    simp only [wfList, Bool.and_eq_true] at h
    rcases List.mem_cons.mp hx with he | he
    · subst he; exact h.1
    · exact ih h.2 he

theorem wfFields_mem {fs : List (String × PyVal)} (h : wfFields fs = true)
    {kv : String × PyVal} (hkv : kv ∈ fs) : wfVal kv.2 = true := by
  induction fs with
  | nil => cases hkv
  | cons kv2 rest ih =>
    obtain ⟨k2, v2⟩ := kv2
    simp only [wfFields, Bool.and_eq_true] at h
    rcases List.mem_cons.mp hkv with he | he
    · subst he; exact h.1
    · exact ih h.2 he

theorem pyEq_refl_bounded :
    ∀ (n : Nat) (v : PyVal), sizeOf v ≤ n → wfVal v = true → pyEq v v = true := by
  intro n
  induction n with
  | zero =>
    intro v hv _
    cases v <;> simp_arith at hv
  | succ n ih =>
    intro v hv hwf
    match v with
    | .null => rfl
    | .bool b => simp [pyEq]
    | .int m => simp [pyEq]
    | .num q => simp [pyEq]
    | .str s => simp [pyEq]
    | .arr xs =>
      show pyEqList xs xs = true
      apply pyEqList_self
      intro x hx
      have hsz : sizeOf x < sizeOf (PyVal.arr xs) := by
        have := List.sizeOf_lt_of_mem hx
        simp_arith
        omega
      have hwx : wfVal x = true := wfList_mem hwf hx
      exact ih x (by omega) hwx
    | .obj fs =>
      simp only [wfVal, Bool.and_eq_true] at hwf
      show (pyEqFields fs fs &&
        fs.all (fun kv => fs.any (fun kv2 => kv2.1 == kv.1))) = true
      apply Bool.and_eq_true_iff.mpr
      constructor
      · apply pyEqFields_full
        intro kv hkv
        refine ⟨kv.2, lookupA_of_nodup hwf.1 (by exact hkv), ?_⟩
        have hsz : sizeOf kv.2 < sizeOf (PyVal.obj fs) := by
          have h1 := List.sizeOf_lt_of_mem hkv
          obtain ⟨k, v⟩ := kv
          simp_arith at h1 ⊢
          omega
        have hwx : wfVal kv.2 = true := wfFields_mem hwf.2 hkv
        exact ih kv.2 (by omega) hwx
      · apply List.all_eq_true.mpr
        intro kv hkv
        exact List.any_eq_true.mpr ⟨kv, hkv, by simp⟩

/-- Python `==` is reflexive on well-formed values. -/
theorem pyEq_refl (v : PyVal) (h : wfVal v = true) : pyEq v v = true :=
  pyEq_refl_bounded (sizeOf v) v le_rfl h

/-- Per-field schema as read by SchemaValidator.validate_schema
(src/schema_validator.py): the keys it extracts from a property's dict are
type, enum and format. -/
structure FieldSchema where
  type? : Option String
  enum? : Option (List PyVal)
  format? : Option String

/-- Object schema as read by SchemaValidator.validate_schema: the keys it
extracts are required (defaulting to the empty list) and properties
(defaulting to the empty mapping). -/
structure ObjSchema where
  required : List String
  properties : List (String × FieldSchema)

/-- SchemaValidator.validate_type (src/schema_validator.py, lines 14-25):
isinstance(value, type_map.get(expected_type, object)). In Python bool is a
subclass of int, so booleans satisfy integer and number; an unknown type
name maps to object and accepts every value. -/
def validate_type (value : PyVal) (expected : String) : Bool :=
  match expected with
  | "string" => match value with | .str _ => true | _ => false
  | "integer" => match value with | .int _ => true | .bool _ => true | _ => false
  | "number" =>
      match value with | .int _ => true | .num _ => true | .bool _ => true | _ => false
  | "boolean" => match value with | .bool _ => true | _ => false
  | "array" => match value with | .arr _ => true | _ => false
  | "object" => match value with | .obj _ => true | _ => false
  | _ => true

/-- Structural acceptance check for an ISO 8601 date part YYYY-MM-DD. -/
def isoDateOk : List Char → Bool
  | [a, b, c, d, h1, e, f, h2, g, h] =>
      a.isDigit && b.isDigit && c.isDigit && d.isDigit && h1 == '-' &&
      e.isDigit && f.isDigit && h2 == '-' && g.isDigit && h.isDigit
  | _ => false

/-- Structural acceptance check for a time part HH:MM:SS. -/
def isoTimeOk : List Char → Bool
  | [a, b, c1, c, d, c2, e, f] =>
      a.isDigit && b.isDigit && c1 == ':' && c.isDigit && d.isDigit &&
      c2 == ':' && e.isDigit && f.isDigit
  | _ => false

/-- Simplified model of the external datetime.fromisoformat succeeding:
accepts YYYY-MM-DD, YYYY-MM-DD*HH:MM:SS, and the same with a +HH:MM /
-HH:MM offset (digit-range checks of the real parser are not modelled; no
claim depends on them). -/
def isoAccepts (s : String) : Bool :=
  let cs := s.toList
  if cs.length == 10 then isoDateOk cs
  else if cs.length == 19 then isoDateOk (cs.take 10) && isoTimeOk (cs.drop 11)
  else if cs.length == 25 then
    isoDateOk (cs.take 10) && isoTimeOk ((cs.drop 11).take 8) &&
    (match cs.drop 19 with
     | [sg, a, b, cl, c, d] =>
         (sg == '+' || sg == '-') && a.isDigit && b.isDigit && cl == ':' &&
         c.isDigit && d.isDigit
     | _ => false)
  else false

/-- value.replace('Z', '+00:00'): the pattern is the single character Z, so
Python replace is exactly per-character substitution. -/
def pyReplaceZ (s : String) : String :=
  String.mk (s.toList.flatMap (fun c => if c == 'Z' then "+00:00".toList else [c]))

/-- The date-time format probe of validate_schema:
datetime.fromisoformat(value.replace('Z', '+00:00')) raising neither
ValueError nor AttributeError; a non-string value raises AttributeError at
.replace, hence false. -/
def pyFromisoformatOk (value : PyVal) : Bool :=
  match value with
  | .str s => isoAccepts (pyReplaceZ s)
  | _ => false

/-- Python `value in enum_list` membership by Python equality. -/
def pyMem (value : PyVal) (es : List PyVal) : Bool :=
  es.any (fun e => pyEq value e)

/-- The validation errors validate_schema can append; in the source each is
an f-string carrying the field name (see VErr.message). -/
inductive VErr where
  | missingField (field : String)
  | typeMismatch (field : String) (expected : String)
  | invalidEnum (field : String)
  | invalidFormat (field : String)
deriving DecidableEq, Repr

/-- The exact Python error strings (the enum message also interpolates the
enum list itself, which the embedding drops). -/
def VErr.message : VErr → String
  | .missingField f => "Missing required field: " ++ f
  | .typeMismatch f t => "Invalid type for field " ++ f ++ ". Expected " ++ t
  | .invalidEnum f => "Invalid value for field " ++ f
  | .invalidFormat f => "Invalid date-time format for field " ++ f

/-- The field a validation error is about. -/
def errField : VErr → String
  | .missingField f => f
  | .typeMismatch f _ => f
  | .invalidEnum f => f
  | .invalidFormat f => f

/-- The type check of validate_schema: skipped when type is absent or the
empty string (both falsy in Python). -/
def typeChunk (field : String) (value : PyVal) : Option String → List VErr
  | some t =>
      if t != "" && !(validate_type value t) then [.typeMismatch field t] else []
  | none => []

/-- The enum check of validate_schema. -/
def enumChunk (field : String) (value : PyVal) : Option (List PyVal) → List VErr
  | some es => if !(pyMem value es) then [.invalidEnum field] else []
  | none => []

/-- The date-time format check of validate_schema. -/
def formatChunk (field : String) (value : PyVal) (fmt : Option String) :
    List VErr :=
  if fmt == some "date-time" then
    if !(pyFromisoformatOk value) then [.invalidFormat field] else []
  else []

/-- The errors appended for one declared field, in source order: type check,
enum check, format check. -/
def fieldErrorsFS (field : String) (value : PyVal) (fs : FieldSchema) :
    List VErr :=
  typeChunk field value fs.type? ++ enumChunk field value fs.enum? ++
    formatChunk field value fs.format?

/-- The errors the properties loop of validate_schema appends for one
payload entry (field, value): nothing when the field is not declared in
properties; the three checks otherwise. -/
def fieldErrors (field : String) (value : PyVal)
    (props : List (String × FieldSchema)) : List VErr :=
  match lookupA field props with
  | none => []
  | some fs => fieldErrorsFS field value fs

/-- SchemaValidator.validate_schema (src/schema_validator.py, lines 27-59):
first the required loop appends a missing-field error per absent required
field, then the data.items() loop appends the per-field errors; the full
list is returned. -/
def validate_schema (data : List (String × PyVal)) (schema : ObjSchema) :
    List VErr :=
  ((schema.required.filter (fun f => (lookupA f data).isNone)).map VErr.missingField)
    ++ data.flatMap (fun kv => fieldErrors kv.1 kv.2 schema.properties)

/-- The required loop of OpenAPIFlask.validate_request_body (src/app.py,
lines 111-116): raises ValueError at the FIRST absent required field. -/
def firstMissing (data : List (String × PyVal)) : List String → Except String Unit
  | [] => .ok ()
  | f :: rest =>
      if (lookupA f data).isNone then .error ("Missing required field: " ++ f)
      else firstMissing data rest

/-- OpenAPIFlask.validate_request_body (src/app.py): checks only the
required list, fail-fast. -/
def validate_request_body (data : List (String × PyVal)) (schema : ObjSchema) :
    Except String Unit :=
  firstMissing data schema.required

theorem lookupA_isSome_of_mem {κ α : Type} [BEq κ] [LawfulBEq κ]
    {data : List (κ × α)} {k : κ}
    {v : α} (h : (k, v) ∈ data) : (lookupA k data).isSome = true := by
  induction data with
  | nil => cases h
  | cons kv rest ih =>
    obtain ⟨k', v'⟩ := kv
    rcases List.mem_cons.mp h with he | he
    · cases he; simp [lookupA]
    · by_cases hk : k' == k
      · simp [lookupA, hk]
      · simp only [lookupA, hk, Bool.false_eq_true, if_false]
        exact ih he

theorem mem_validate_missing {data : List (String × PyVal)} {schema : ObjSchema}
    {f : String} (hf : f ∈ schema.required) (hl : lookupA f data = none) :
    VErr.missingField f ∈ validate_schema data schema := by
  apply List.mem_append_left
  apply List.mem_map.mpr
  exact ⟨f, List.mem_filter.mpr ⟨hf, by simp [hl]⟩, rfl⟩

theorem mem_validate_of_fieldErrors {data : List (String × PyVal)}
    {schema : ObjSchema} {kv : String × PyVal} {e : VErr} (hkv : kv ∈ data)
    (he : e ∈ fieldErrors kv.1 kv.2 schema.properties) :
    e ∈ validate_schema data schema := by
  apply List.mem_append_right
  exact List.mem_flatMap.mpr ⟨kv, hkv, he⟩

theorem typeMismatch_mem_fieldErrors {f : String} {v : PyVal}
    {props : List (String × FieldSchema)} {fs : FieldSchema} {t : String}
    (hl : lookupA f props = some fs) (ht : fs.type? = some t) (hne : t ≠ "")
    (hv : validate_type v t = false) :
    VErr.typeMismatch f t ∈ fieldErrors f v props := by
  have : fieldErrors f v props = fieldErrorsFS f v fs := by
    unfold fieldErrors; rw [hl]
  rw [this]
  unfold fieldErrorsFS
  rw [ht]
  apply List.mem_append_left
  apply List.mem_append_left
  have hc : (t != "" && !(validate_type v t)) = true := by
    simp [bne_iff_ne, hne, hv]
  simp [typeChunk, hc]

theorem invalidEnum_mem_fieldErrors {f : String} {v : PyVal}
    {props : List (String × FieldSchema)} {fs : FieldSchema} {es : List PyVal}
    (hl : lookupA f props = some fs) (he : fs.enum? = some es)
    (hm : pyMem v es = false) : VErr.invalidEnum f ∈ fieldErrors f v props := by
  have hfe : fieldErrors f v props = fieldErrorsFS f v fs := by
    unfold fieldErrors; rw [hl]
  rw [hfe]
  unfold fieldErrorsFS
  rw [he]
  apply List.mem_append_left
  apply List.mem_append_right
  simp [enumChunk, hm]

theorem invalidFormat_mem_fieldErrors {f : String} {v : PyVal}
    {props : List (String × FieldSchema)} {fs : FieldSchema}
    (hl : lookupA f props = some fs) (hf : fs.format? = some "date-time")
    (hm : pyFromisoformatOk v = false) :
    VErr.invalidFormat f ∈ fieldErrors f v props := by
  have hfe : fieldErrors f v props = fieldErrorsFS f v fs := by
    unfold fieldErrors; rw [hl]
  rw [hfe]
  unfold fieldErrorsFS
  rw [hf]
  apply List.mem_append_right
  simp [formatChunk, hm]

theorem fieldErrors_field {f : String} {v : PyVal}
    {props : List (String × FieldSchema)} {e : VErr}
    (he : e ∈ fieldErrors f v props) :
    errField e = f ∧ (lookupA f props).isSome = true := by
  unfold fieldErrors at he
  cases hl : lookupA f props with
  | none => rw [hl] at he; cases he
  | some fs =>
    rw [hl] at he
    have he2 : e ∈ fieldErrorsFS f v fs := he
    refine ⟨?_, rfl⟩
    unfold fieldErrorsFS at he2
    rcases List.mem_append.mp he2 with h | h
    · rcases List.mem_append.mp h with h | h
      · unfold typeChunk at h
        split at h
        · split at h
          · simp only [List.mem_singleton] at h; subst h; rfl
          · cases h
        · cases h
      · unfold enumChunk at h
        split at h
        · split at h
          · simp only [List.mem_singleton] at h; subst h; rfl
          · cases h
        · cases h
    · unfold formatChunk at h
      split at h
      · split at h
        · simp only [List.mem_singleton] at h; subst h; rfl
        · cases h
      · cases h

/-- C2: for every payload dict and object schema, validate_schema reports a
missing-field error for each required property absent from the payload,
reports a type-mismatch error for each present declared property whose
runtime type disagrees with the declared type (type agreement being Python
isinstance semantics, where bool satisfies integer and number), and reports
no error about any payload property that is not declared in the schema's
properties. -/
theorem C2_validate_schema_pointwise (data : List (String × PyVal))
    (schema : ObjSchema) :
    (∀ f ∈ schema.required, lookupA f data = none →
      VErr.missingField f ∈ validate_schema data schema)
    ∧ (∀ kv ∈ data, ∀ fs t, lookupA kv.1 schema.properties = some fs →
      fs.type? = some t → t ≠ "" → validate_type kv.2 t = false →
      VErr.typeMismatch kv.1 t ∈ validate_schema data schema)
    ∧ (∀ kv ∈ data, lookupA kv.1 schema.properties = none →
      ∀ e ∈ validate_schema data schema, errField e ≠ kv.1) := by
  refine ⟨?_, ?_, ?_⟩
  · intro f hf hl
    exact mem_validate_missing hf hl
  · intro kv hkv fs t hl ht hne hv
    exact mem_validate_of_fieldErrors hkv
      (typeMismatch_mem_fieldErrors hl ht hne hv)
  · intro kv hkv hl e he hfield
    rcases List.mem_append.mp he with h | h
    · obtain ⟨f, hfm, hfe⟩ := List.mem_map.mp h
      have hfn := List.mem_filter.mp hfm
      subst hfe
      simp only [errField] at hfield
      subst hfield
      have hs := lookupA_isSome_of_mem hkv
      have : (lookupA kv.1 data).isNone = true := by
        simpa using hfn.2
      rw [Option.isNone_iff_eq_none.mp this] at hs
      cases hs
    · obtain ⟨kv2, hkv2, hin⟩ := List.mem_flatMap.mp h
      obtain ⟨hfe, hsome⟩ := fieldErrors_field hin
      rw [hfield] at hfe
      rw [← hfe, hl] at hsome
      cases hsome

/-- C2 witness: for the payload x="v", extra=3 and the schema requiring x
and m with x declared integer, the theorem reports the missing m, the type
mismatch on x, and no error about the undeclared extra. -/
theorem C2_witness :
    VErr.missingField "m" ∈ validate_schema
      [("x", PyVal.str "v"), ("extra", PyVal.int 3)]
      (ObjSchema.mk ["x", "m"] [("x", FieldSchema.mk (some "integer") none none)])
    ∧ VErr.typeMismatch "x" "integer" ∈ validate_schema
      [("x", PyVal.str "v"), ("extra", PyVal.int 3)]
      (ObjSchema.mk ["x", "m"] [("x", FieldSchema.mk (some "integer") none none)])
    ∧ (validate_schema [("x", PyVal.str "v"), ("extra", PyVal.int 3)]
      (ObjSchema.mk ["x", "m"] [("x", FieldSchema.mk (some "integer") none none)])).all
        (fun e => errField e != "extra") = true := by
  have h := C2_validate_schema_pointwise
    [("x", PyVal.str "v"), ("extra", PyVal.int 3)]
    (ObjSchema.mk ["x", "m"] [("x", FieldSchema.mk (some "integer") none none)])
  refine ⟨h.1 "m" (by simp) rfl,
    h.2.1 ("x", PyVal.str "v") (by simp) (FieldSchema.mk (some "integer") none none)
      "integer" rfl rfl (by decide) rfl, ?_⟩
  apply List.all_eq_true.mpr
  intro e he
  have := h.2.2 ("extra", PyVal.int 3) (by simp) rfl e he
  simpa [bne_iff_ne] using this

/-- C3 counterexample: with an empty payload and a schema requiring both a
and b there are two violations, yet validate_request_body (src/app.py)
raises at the first one and reports only "Missing required field: a",
while validate_schema (src/schema_validator.py) returns both. So "validation
returns the complete set of all violations" is false for the app.py
validation path cited by the claim. -/
theorem C3_cex_first_error_only :
    validate_request_body [] (ObjSchema.mk ["a", "b"] []) =
      .error "Missing required field: a"
    ∧ validate_schema [] (ObjSchema.mk ["a", "b"] []) =
      [VErr.missingField "a", VErr.missingField "b"] :=
  ⟨rfl, rfl⟩

/-- C3 (amended): SchemaValidator.validate_schema accumulates and returns
every violation — each absent required field, each type mismatch, each enum
violation and each date-time format violation of the payload appears in the
returned list; it never stops at the first error. (The claim as stated also
covers OpenAPIFlask.validate_request_body of src/app.py, which instead
raises at the first missing required field.) -/
theorem C3_validate_schema_complete (data : List (String × PyVal))
    (schema : ObjSchema) :
    (∀ f ∈ schema.required, lookupA f data = none →
      VErr.missingField f ∈ validate_schema data schema)
    ∧ (∀ kv ∈ data, ∀ fs, lookupA kv.1 schema.properties = some fs →
      (∀ t, fs.type? = some t → t ≠ "" → validate_type kv.2 t = false →
        VErr.typeMismatch kv.1 t ∈ validate_schema data schema)
      ∧ (∀ es, fs.enum? = some es → pyMem kv.2 es = false →
        VErr.invalidEnum kv.1 ∈ validate_schema data schema)
      ∧ (fs.format? = some "date-time" → pyFromisoformatOk kv.2 = false →
        VErr.invalidFormat kv.1 ∈ validate_schema data schema)) := by
  refine ⟨fun f hf hl => mem_validate_missing hf hl, ?_⟩
  intro kv hkv fs hl
  refine ⟨fun t ht hne hv => mem_validate_of_fieldErrors hkv
      (typeMismatch_mem_fieldErrors hl ht hne hv),
    fun es he hm => mem_validate_of_fieldErrors hkv
      (invalidEnum_mem_fieldErrors hl he hm),
    fun hf hm => mem_validate_of_fieldErrors hkv
      (invalidFormat_mem_fieldErrors hl hf hm)⟩

/-- C3 witness: a payload violating a required field, a type, an enum and a
date-time format all at once; all four errors are in the returned list. -/
theorem C3_witness :
    VErr.missingField "r" ∈ validate_schema
      [("x", PyVal.int 5), ("d", PyVal.str "nope")]
      (ObjSchema.mk ["r"]
        [("x", FieldSchema.mk (some "string") (some [PyVal.str "a"]) none),
         ("d", FieldSchema.mk none none (some "date-time"))])
    ∧ VErr.typeMismatch "x" "string" ∈ validate_schema
      [("x", PyVal.int 5), ("d", PyVal.str "nope")]
      (ObjSchema.mk ["r"]
        [("x", FieldSchema.mk (some "string") (some [PyVal.str "a"]) none),
         ("d", FieldSchema.mk none none (some "date-time"))])
    ∧ VErr.invalidEnum "x" ∈ validate_schema
      [("x", PyVal.int 5), ("d", PyVal.str "nope")]
      (ObjSchema.mk ["r"]
        [("x", FieldSchema.mk (some "string") (some [PyVal.str "a"]) none),
         ("d", FieldSchema.mk none none (some "date-time"))])
    ∧ VErr.invalidFormat "d" ∈ validate_schema
      [("x", PyVal.int 5), ("d", PyVal.str "nope")]
      (ObjSchema.mk ["r"]
        [("x", FieldSchema.mk (some "string") (some [PyVal.str "a"]) none),
         ("d", FieldSchema.mk none none (some "date-time"))]) := by
  have h := C3_validate_schema_complete
    [("x", PyVal.int 5), ("d", PyVal.str "nope")]
    (ObjSchema.mk ["r"]
      [("x", FieldSchema.mk (some "string") (some [PyVal.str "a"]) none),
       ("d", FieldSchema.mk none none (some "date-time"))])
  have hx := h.2 ("x", PyVal.int 5) (by simp)
    (FieldSchema.mk (some "string") (some [PyVal.str "a"]) none) rfl
  have hd := h.2 ("d", PyVal.str "nope") (by simp)
    (FieldSchema.mk none none (some "date-time")) rfl
  exact ⟨h.1 "r" (by simp) rfl,
    hx.1 "string" rfl (by decide) rfl,
    hx.2.1 [PyVal.str "a"] rfl (by decide),
    hd.2.2 rfl (by decide)⟩

/-- One stored endpoint instance is a Python dict. -/
abbrev Inst := List (String × PyVal)

/-- The endpoints mapping of config.yaml as src/generic.py and src/test.py
use it: normalized path to the instances list (the intermediate
single-key dict config["endpoints"][path]["instances"] is inlined). -/
abbrev Config := List (String × List Inst)

/-- path.strip('/'): remove every leading and trailing slash character. -/
def pyStripSlashes (s : String) : String :=
  String.mk (((s.toList.dropWhile (· == '/')).reverse.dropWhile (· == '/')).reverse)

/-- normalize_path (src/generic.py line 24-25, identical in test.py,
xml.py and the unnamed draft): prepend one slash to the stripped path. -/
def normalize_path (path : String) : String :=
  "/" ++ pyStripSlashes path

/-- data.get("method", "POST").upper(): AttributeError (hence a 500 through
the route's except) when a non-string method value is present. -/
def pyGetMethod (data : List (String × PyVal)) : Except Unit String :=
  match lookupA "method" data with
  | none => .ok "POST"
  | some (.str m) => .ok m.toUpper
  | some _ => .error ()

/-- The outcomes of register_endpoint with their HTTP status codes. -/
inductive RegResp where
  | success
  | missingReqResp
  | duplicate
  | serverError
deriving DecidableEq, Repr

/-- The status codes the register route answers with. -/
def RegResp.code : RegResp → Nat
  | .success => 200
  | .missingReqResp => 400
  | .duplicate => 400
  | .serverError => 500

/-- The duplicate scan of register_endpoint (src/generic.py lines 43-45):
for each stored instance, instance["request"] == data["request"] and
instance["response"] == data["response"]; `and` short-circuits, and a
missing key raises KeyError (a 500 through the route's except). -/
def dupScan (req resp : PyVal) : List Inst → Except Unit Bool
  | [] => .ok false
  | inst :: rest =>
      match lookupA "request" inst with
      | none => .error ()
      | some r =>
          if pyEq r req then
            match lookupA "response" inst with
            | none => .error ()
            | some p => if pyEq p resp then .ok true else dupScan req resp rest
          else dupScan req resp rest

/-- register_endpoint (src/generic.py lines 27-60). uuid and the
datetime.now string are injected parameters; the returned Config is the
state written back (unchanged when no write_config call is reached). -/
def register_endpoint (cfg : Config) (path : String)
    (data : List (String × PyVal)) (uuid now : String) : Config × RegResp :=
  let normalized := normalize_path path
  match pyGetMethod data with
  | .error _ => (cfg, .serverError)
  | .ok method =>
    match lookupA "request" data, lookupA "response" data with
    | some req, some resp =>
        let instances := (lookupA normalized cfg).getD []
        match dupScan req resp instances with
        | .error _ => (cfg, .serverError)
        | .ok true => (cfg, .duplicate)
        | .ok false =>
            let newInst : Inst :=
              [("id", .str uuid), ("method", .str method), ("request", req),
               ("response", resp), ("created_at", .str now)]
            (setKey cfg normalized (instances ++ [newInst]), .success)
    | _, _ => (cfg, .missingReqResp)

/-- The projection get_all_endpoints builds per instance (id, path,
request, response); a missing key raises (no try in that route). -/
def projectInst (normalized : String) (inst : Inst) : Except Unit Inst :=
  match lookupA "id" inst, lookupA "request" inst, lookupA "response" inst with
  | some i, some r, some p =>
      .ok [("id", i), ("path", .str normalized), ("request", r), ("response", p)]
  | _, _, _ => .error ()

/-- get_all_endpoints (src/generic.py lines 62-76): 200 with the projected
instances, else 404 for an unknown path (500 stands for an uncaught
exception). -/
def get_all_endpoints (cfg : Config) (path : String) : Nat × Option (List Inst) :=
  let normalized := normalize_path path
  match lookupA normalized cfg with
  | some insts =>
      match insts.mapM (projectInst normalized) with
      | .ok resp => (200, some resp)
      | .error _ => (500, none)
  | none => (404, none)

/-- The id scan shared by get_endpoint: first instance whose
instance["id"] == endpoint_id (Python ==; KeyError on a missing id). -/
def findById (eid : String) : List Inst → Except Unit (Option Inst)
  | [] => .ok none
  | inst :: rest =>
      match lookupA "id" inst with
      | none => .error ()
      | some v => if pyEq v (.str eid) then .ok (some inst) else findById eid rest

/-- get_endpoint (src/generic.py lines 78-87, textually identical in
src/test.py lines 124-132): 200 with the instance, 404 otherwise. -/
def get_endpoint (cfg : Config) (path eid : String) : Nat × Option Inst :=
  let normalized := normalize_path path
  match lookupA normalized cfg with
  | some insts =>
      match findById eid insts with
      | .error _ => (500, none)
      | .ok (some inst) => (200, some inst)
      | .ok none => (404, none)
  | none => (404, none)

/-- instance.update(data) of Python: merge every patch binding into the
dict, in patch order. -/
def pyDictUpdate (d : List (String × PyVal)) (patch : List (String × PyVal)) :
    List (String × PyVal) :=
  patch.foldl (fun acc kv => setKey acc kv.1 kv.2) d

/-- The update loop of update_endpoint: replace the first instance whose id
matches with instance.update(data) plus a refreshed updated_at; later
instances untouched. -/
def updateInList (eid : String) (patch : List (String × PyVal)) (now : String) :
    List Inst → Except Unit (Option (List Inst × Inst))
  | [] => .ok none
  | inst :: rest =>
      match lookupA "id" inst with
      | none => .error ()
      | some v =>
          if pyEq v (.str eid) then
            let inst2 := setKey (pyDictUpdate inst patch) "updated_at" (.str now)
            .ok (some (inst2 :: rest, inst2))
          else
            match updateInList eid patch now rest with
            | .error e => .error e
            | .ok none => .ok none
            | .ok (some (rest2, i2)) => .ok (some (inst :: rest2, i2))

/-- update_endpoint (src/generic.py lines 89-106, identical in test.py):
404 when the path or the id is unknown (no write occurs — write_config is
only called on the success path), 200 with the merged instance otherwise;
500 models an exception caught by the route (also without a write). -/
def update_endpoint (cfg : Config) (path eid : String)
    (patch : List (String × PyVal)) (now : String) :
    Config × Nat × Option Inst :=
  let normalized := normalize_path path
  match lookupA normalized cfg with
  | none => (cfg, 404, none)
  | some insts =>
      match updateInList eid patch now insts with
      | .error _ => (cfg, 500, none)
      | .ok none => (cfg, 404, none)
      | .ok (some (insts2, inst2)) =>
          (setKey cfg normalized insts2, 200, some inst2)

/-- delete_all_endpoints (src/generic.py lines 108-117): removes the whole
path entry (all its instances) or answers 404. -/
def delete_all_endpoints (cfg : Config) (path : String) : Config × Nat :=
  let normalized := normalize_path path
  match lookupA normalized cfg with
  | some _ => (removeKey cfg normalized, 200)
  | none => (cfg, 404)

/-- The deletion loop of delete_endpoint: drop the first instance whose id
matches. -/
def deleteInList (eid : String) : List Inst → Except Unit (Option (List Inst))
  | [] => .ok none
  | inst :: rest =>
      match lookupA "id" inst with
      | none => .error ()
      | some v =>
          if pyEq v (.str eid) then .ok (some rest)
          else
            match deleteInList eid rest with
            | .error e => .error e
            | .ok none => .ok none
            | .ok (some rest2) => .ok (some (inst :: rest2))

/-- delete_endpoint (src/generic.py lines 119-133, identical in test.py). -/
def delete_endpoint (cfg : Config) (path eid : String) : Config × Nat :=
  let normalized := normalize_path path
  match lookupA normalized cfg with
  | none => (cfg, 404)
  | some insts =>
      match deleteInList eid insts with
      | .error _ => (cfg, 500)
      | .ok none => (cfg, 404)
      | .ok (some insts2) => (setKey cfg normalized insts2, 200)

/-- Python truthiness, as used by `if not request_schema or not
response_schema: continue`. -/
def pyTruthy : PyVal → Bool
  | .null => false
  | .bool b => b
  | .int n => n != 0
  | .num q => q != 0
  | .str s => s != ""
  | .arr xs => !xs.isEmpty
  | .obj fs => !fs.isEmpty

/-- handle_dynamic_request_response (src/generic.py lines 140-204). The
external generator (the AI backend behind generate_dynamic_value) is the
parameter gen. The Python loop iterates the live list while appending, but
every appended instance lacks request_schema and is skipped by the
continue, so one pass over the original instances is the exact effect. -/
def handle_dynamic_request_response (gen : PyVal → String → PyVal)
    (cfg : Config) (path : String) (uuid now : String) : Config × Nat :=
  let normalized := normalize_path path
  match lookupA normalized cfg with
  | none => (cfg, 404)
  | some instances =>
      if instances.isEmpty then (cfg, 404)
      else
        let newInsts := instances.filterMap (fun inst =>
          let reqS := (lookupA "request_schema" inst).getD .null
          let respS := (lookupA "response_schema" inst).getD .null
          if pyTruthy reqS && pyTruthy respS then
            some [("id", .str uuid), ("method", .str "POST"),
                  ("generated_request", gen reqS "request"),
                  ("generated_response", gen respS "response"),
                  ("created_at", .str now)]
          else none)
        if newInsts.isEmpty then (cfg, 400)
        else (setKey cfg normalized (instances ++ newInsts), 200)

/-- register_endpoint of src/test.py (lines 42-76): same shape as the
generic.py route but without the duplicate scan, storing the schemas under
request_schema/response_schema, and with id = None (PyVal.null) for the
first instance of a path and a fresh uuid string only for later ones. -/
def test_register_endpoint (cfg : Config) (path : String)
    (data : List (String × PyVal)) (uuid now : String) : Config × RegResp :=
  let normalized := normalize_path path
  match pyGetMethod data with
  | .error _ => (cfg, .serverError)
  | .ok method =>
    match lookupA "request" data, lookupA "response" data with
    | some req, some resp =>
        let instances := (lookupA normalized cfg).getD []
        let instId : PyVal := if instances.isEmpty then .null else .str uuid
        let newInst : Inst :=
          [("id", instId), ("method", .str method), ("request_schema", req),
           ("response_schema", resp), ("created_at", .str now)]
        (setKey cfg normalized (instances ++ [newInst]), .success)
    | _, _ => (cfg, .missingReqResp)

theorem head?_dropWhile_false {α : Type} {p : α → Bool} {l : List α} {c : α}
    (h : (l.dropWhile p).head? = some c) : p c = false := by
  induction l with
  | nil => cases h
  | cons x xs ih =>
    by_cases hp : p x
    · rw [List.dropWhile_cons_of_pos hp] at h
      exact ih h
    · rw [List.dropWhile_cons_of_neg hp] at h
      cases h
      exact Bool.not_eq_true _ ▸ (by simpa using hp)

theorem dropWhile_replicate_append {α : Type} (p : α → Bool) (c : α)
    (hc : p c = true) (n : Nat) (l : List α) :
    List.dropWhile p (List.replicate n c ++ l) = List.dropWhile p l := by
  induction n with
  | zero => simp
  | succ n ih =>
    rw [List.replicate_succ, List.cons_append, List.dropWhile_cons_of_pos hc]
    exact ih

theorem dropWhile_append_of_ne_nil {α : Type} {p : α → Bool} {l₁ : List α}
    (h : List.dropWhile p l₁ ≠ []) (l₂ : List α) :
    List.dropWhile p (l₁ ++ l₂) = List.dropWhile p l₁ ++ l₂ := by
  induction l₁ with
  | nil => exact absurd rfl h
  | cons x xs ih =>
    by_cases hp : p x
    · rw [List.dropWhile_cons_of_pos hp] at h ⊢
      rw [List.cons_append, List.dropWhile_cons_of_pos hp]
      exact ih h
    · rw [List.cons_append, List.dropWhile_cons_of_neg hp,
        List.dropWhile_cons_of_neg hp, List.cons_append]

theorem getLast?_of_suffix {α : Type} {e m : List α} (h : e <:+ m) {c : α}
    (hc : e.getLast? = some c) : m.getLast? = some c := by
  obtain ⟨t, rfl⟩ := h
  have hne : e ≠ [] := by
    intro he
    subst he
    cases hc
  rw [List.getLast?_append_of_ne_nil t hne]
  exact hc

/-- C8 counterexample: normalize_path maps "/" to "/", whose last character
is a slash — so "the result does not end with a trailing slash" fails for
inputs whose slash-stripped content is empty. -/
theorem C8_cex_root_path :
    normalize_path "/" = "/" ∧
    (normalize_path "/").toList.getLast? = some '/' :=
  ⟨rfl, rfl⟩

/-- C8 (amended): normalize_path prepends exactly one slash to the
slash-stripped content; when that content is nonempty its first and last
characters are not slashes (one leading slash, no trailing slash); when it
is empty the result is exactly "/" (which does end in a slash); and padding
any input with leading or trailing slashes never changes the result, so two
paths differing only in leading or trailing slashes normalize identically. -/
theorem C8_normalize_path_shape (s : String) (a b : Nat) :
    normalize_path s = "/" ++ pyStripSlashes s
    ∧ (∀ c, (pyStripSlashes s).toList.head? = some c → c ≠ '/')
    ∧ (∀ c, (pyStripSlashes s).toList.getLast? = some c → c ≠ '/')
    ∧ (pyStripSlashes s = "" → normalize_path s = "/")
    ∧ normalize_path (String.mk (List.replicate a '/') ++ s ++
        String.mk (List.replicate b '/')) = normalize_path s := by
  have hp : ((fun x => x == '/') : Char → Bool) '/' = true := by decide
  refine ⟨rfl, ?_, ?_, ?_, ?_⟩
  · intro c hc
    have h1 : (((s.toList.dropWhile (· == '/')).reverse.dropWhile
        (· == '/')).reverse).head? = some c := hc
    rw [List.head?_reverse] at h1
    have h2 := getLast?_of_suffix
      (@List.dropWhile_suffix _
        ((s.toList.dropWhile (· == '/')).reverse) (· == '/')) h1
    rw [List.getLast?_reverse] at h2
    have := head?_dropWhile_false h2
    simpa using this
  · intro c hc
    have h1 : (((s.toList.dropWhile (· == '/')).reverse.dropWhile
        (· == '/')).reverse).getLast? = some c := hc
    rw [List.getLast?_reverse] at h1
    have := head?_dropWhile_false h1
    simpa using this
  · intro h
    show "/" ++ pyStripSlashes s = "/"
    rw [h]
    simp
  · show "/" ++ pyStripSlashes (String.mk (List.replicate a '/') ++ s ++
      String.mk (List.replicate b '/')) = "/" ++ pyStripSlashes s
    congr 1
    unfold pyStripSlashes
    congr 1
    have hdata : (String.mk (List.replicate a '/') ++ s ++
        String.mk (List.replicate b '/')).toList =
        List.replicate a '/' ++ s.toList ++ List.replicate b '/' := by
      simp [String.toList]
    rw [hdata, List.append_assoc,
      dropWhile_replicate_append (fun x => x == '/') '/' hp]
    by_cases hd : s.toList.dropWhile (· == '/') = []
    · have hall : ∀ x ∈ s.toList, (x == '/') = true :=
        List.dropWhile_eq_nil_iff.mp hd
      have hall2 : s.toList.dropWhile (· == '/') ++ List.replicate b '/' =
          List.replicate b '/' := by rw [hd]; rfl
      have hnil : (s.toList ++ List.replicate b '/').dropWhile (· == '/') = [] := by
        apply List.dropWhile_eq_nil_iff.mpr
        intro x hx
        rcases List.mem_append.mp hx with h | h
        · exact hall x h
        · have := List.eq_of_mem_replicate h
          subst this
          exact hp
      rw [hnil, hd]
    · rw [dropWhile_append_of_ne_nil hd, List.reverse_append,
        List.reverse_replicate,
        dropWhile_replicate_append (fun x => x == '/') '/' hp]

/-- C8 witness: at "a//" with two leading slashes and one trailing slash
added, the normalized result is "/a", whose stripped content starts and
ends with a non-slash, and the padded input "//a///" normalizes the same. -/
theorem C8_witness :
    normalize_path "a//" = "/" ++ pyStripSlashes "a//"
    ∧ ('a' : Char) ≠ '/'
    ∧ (pyStripSlashes "a//" = "" → normalize_path "a//" = "/")
    ∧ normalize_path (String.mk (List.replicate 2 '/') ++ "a//" ++
        String.mk (List.replicate 1 '/')) = normalize_path "a//" := by
  have h := C8_normalize_path_shape "a//" 2 1
  exact ⟨h.1, h.2.1 'a' rfl, h.2.2.2.1, h.2.2.2.2⟩

theorem lookupA_setKey_self {κ α : Type} [BEq κ] [LawfulBEq κ]
    (d : List (κ × α)) (k : κ) (v : α) :
    lookupA k (setKey d k v) = some v := by
  induction d with
  | nil => simp [setKey, lookupA]
  | cons kv rest ih =>
    obtain ⟨k', w⟩ := kv
    by_cases hk : k' == k
    · simp [setKey, lookupA, hk]
    · simp only [setKey, hk, Bool.false_eq_true, if_false]
      simp only [lookupA, hk, Bool.false_eq_true, if_false]
      exact ih

theorem dupScan_cons_eq {inst : Inst} {r p : PyVal} (req resp : PyVal)
    (rest : List Inst) (hr : lookupA "request" inst = some r)
    (hp : lookupA "response" inst = some p) :
    dupScan req resp (inst :: rest) =
      if pyEq r req = true then
        (if pyEq p resp = true then Except.ok true else dupScan req resp rest)
      else dupScan req resp rest := by
  simp only [dupScan, hr, hp]

theorem dupScan_true {req resp : PyVal} {insts : List Inst}
    (hkeys : ∀ i ∈ insts, (lookupA "request" i).isSome = true ∧
      (lookupA "response" i).isSome = true)
    (hex : ∃ i ∈ insts, ∃ r p, lookupA "request" i = some r ∧
      lookupA "response" i = some p ∧ pyEq r req = true ∧ pyEq p resp = true) :
    dupScan req resp insts = .ok true := by
  induction insts with
  | nil => obtain ⟨i, hi, _⟩ := hex; cases hi
  | cons inst rest ih =>
    obtain ⟨hk1, hk2⟩ := hkeys inst (List.mem_cons_self _ _)
    obtain ⟨r, hr⟩ := Option.isSome_iff_exists.mp hk1
    obtain ⟨p, hp⟩ := Option.isSome_iff_exists.mp hk2
    rw [dupScan_cons_eq req resp rest hr hp]
    by_cases heq : pyEq r req = true
    · rw [if_pos heq]
      by_cases hep : pyEq p resp = true
      · rw [if_pos hep]
      · rw [if_neg hep]
        apply ih
        · intro i hi; exact hkeys i (List.mem_cons_of_mem _ hi)
        · obtain ⟨i, hi, r', p', hr', hp', he1, he2⟩ := hex
          rcases List.mem_cons.mp hi with hh | hh
          · subst hh
            rw [hr] at hr'; cases hr'
            rw [hp] at hp'; cases hp'
            exact absurd he2 hep
          · exact ⟨i, hh, r', p', hr', hp', he1, he2⟩
    · rw [if_neg heq]
      apply ih
      · intro i hi; exact hkeys i (List.mem_cons_of_mem _ hi)
      · obtain ⟨i, hi, r', p', hr', hp', he1, he2⟩ := hex
        rcases List.mem_cons.mp hi with hh | hh
        · subst hh
          rw [hr] at hr'; cases hr'
          exact absurd he1 heq
        · exact ⟨i, hh, r', p', hr', hp', he1, he2⟩

theorem dupScan_false {req resp : PyVal} {insts : List Inst}
    (h : ∀ i ∈ insts, ∃ r p, lookupA "request" i = some r ∧
      lookupA "response" i = some p ∧
      ¬(pyEq r req = true ∧ pyEq p resp = true)) :
    dupScan req resp insts = .ok false := by
  induction insts with
  | nil => rfl
  | cons inst rest ih =>
    obtain ⟨r, p, hr, hp, hne⟩ := h inst (List.mem_cons_self _ _)
    rw [dupScan_cons_eq req resp rest hr hp]
    by_cases heq : pyEq r req = true
    · rw [if_pos heq]
      have hep : pyEq p resp ≠ true := fun he => hne ⟨heq, he⟩
      rw [if_neg hep]
      exact ih (fun i hi => h i (List.mem_cons_of_mem _ hi))
    · rw [if_neg heq]
      exact ih (fun i hi => h i (List.mem_cons_of_mem _ hi))

/-- C1: registering under a path already holding an instance whose stored
request and response are byte-identical to the submitted ones is rejected
with the duplicate error (HTTP 400) and the stored state is returned
unchanged, while registering a request/response pair that differs (by
Python equality) from every stored instance succeeds and the path's
instance list afterwards holds the old instances together with the new
one. -/
theorem C1_register_duplicate_policy (cfg : Config) (path : String)
    (data : List (String × PyVal)) (uuid now : String) (insts : List Inst)
    (req resp : PyVal) (m : String)
    (hpath : lookupA (normalize_path path) cfg = some insts)
    (hm : pyGetMethod data = .ok m)
    (hreq : lookupA "request" data = some req)
    (hresp : lookupA "response" data = some resp) :
    ((∀ i ∈ insts, (lookupA "request" i).isSome = true ∧
        (lookupA "response" i).isSome = true) →
      (∃ i ∈ insts, lookupA "request" i = some req ∧
        lookupA "response" i = some resp) →
      wfVal req = true → wfVal resp = true →
      register_endpoint cfg path data uuid now = (cfg, .duplicate))
    ∧ ((∀ i ∈ insts, ∃ r p, lookupA "request" i = some r ∧
          lookupA "response" i = some p ∧
          ¬(pyEq r req = true ∧ pyEq p resp = true)) →
      register_endpoint cfg path data uuid now =
        (setKey cfg (normalize_path path) (insts ++
          [[("id", .str uuid), ("method", .str m), ("request", req),
            ("response", resp), ("created_at", .str now)]]), .success)
      ∧ lookupA (normalize_path path)
          (setKey cfg (normalize_path path) (insts ++
            [[("id", .str uuid), ("method", .str m), ("request", req),
              ("response", resp), ("created_at", .str now)]])) =
          some (insts ++
            [[("id", .str uuid), ("method", .str m), ("request", req),
              ("response", resp), ("created_at", .str now)]])) := by
  constructor
  · intro hkeys hex hwr hwp
    have hscan : dupScan req resp insts = .ok true := by
      apply dupScan_true hkeys
      obtain ⟨i, hi, h1, h2⟩ := hex
      exact ⟨i, hi, req, resp, h1, h2, pyEq_refl req hwr, pyEq_refl resp hwp⟩
    simp only [register_endpoint, hm, hreq, hresp, hpath, Option.getD_some, hscan]
  · intro hall
    have hscan : dupScan req resp insts = .ok false := dupScan_false hall
    constructor
    · simp only [register_endpoint, hm, hreq, hresp, hpath, Option.getD_some, hscan]
    · exact lookupA_setKey_self cfg (normalize_path path) _

/-- C1 witness: a store holding one instance under /pet; re-registering the
identical request/response pair is rejected with the state unchanged;
registering a different pair succeeds with both instances in the list. -/
theorem C1_witness :
    register_endpoint
      [("/pet", [[("id", PyVal.str "u0"), ("method", PyVal.str "POST"),
        ("request", PyVal.int 1), ("response", PyVal.int 2),
        ("created_at", PyVal.str "t0")]])]
      "pet" [("request", PyVal.int 1), ("response", PyVal.int 2)] "u1" "t1" =
      ([("/pet", [[("id", PyVal.str "u0"), ("method", PyVal.str "POST"),
        ("request", PyVal.int 1), ("response", PyVal.int 2),
        ("created_at", PyVal.str "t0")]])], RegResp.duplicate)
    ∧ register_endpoint
      [("/pet", [[("id", PyVal.str "u0"), ("method", PyVal.str "POST"),
        ("request", PyVal.int 1), ("response", PyVal.int 2),
        ("created_at", PyVal.str "t0")]])]
      "pet" [("request", PyVal.int 1), ("response", PyVal.int 3)] "u1" "t1" =
      ([("/pet", [[("id", PyVal.str "u0"), ("method", PyVal.str "POST"),
        ("request", PyVal.int 1), ("response", PyVal.int 2),
        ("created_at", PyVal.str "t0")],
        [("id", PyVal.str "u1"), ("method", PyVal.str "POST"),
        ("request", PyVal.int 1), ("response", PyVal.int 3),
        ("created_at", PyVal.str "t1")]])], RegResp.success) := by
  constructor
  · have h := (C1_register_duplicate_policy
      [("/pet", [[("id", PyVal.str "u0"), ("method", PyVal.str "POST"),
        ("request", PyVal.int 1), ("response", PyVal.int 2),
        ("created_at", PyVal.str "t0")]])]
      "pet" [("request", PyVal.int 1), ("response", PyVal.int 2)] "u1" "t1"
      [[("id", PyVal.str "u0"), ("method", PyVal.str "POST"),
        ("request", PyVal.int 1), ("response", PyVal.int 2),
        ("created_at", PyVal.str "t0")]]
      (PyVal.int 1) (PyVal.int 2) "POST" rfl rfl rfl rfl).1
      (by
        intro i hi
        simp only [List.mem_singleton] at hi
        subst hi
        exact ⟨rfl, rfl⟩)
      ⟨_, List.mem_singleton.mpr rfl, rfl, rfl⟩
      (by simp [wfVal]) (by simp [wfVal])
    exact h
  · have h := (C1_register_duplicate_policy
      [("/pet", [[("id", PyVal.str "u0"), ("method", PyVal.str "POST"),
        ("request", PyVal.int 1), ("response", PyVal.int 2),
        ("created_at", PyVal.str "t0")]])]
      "pet" [("request", PyVal.int 1), ("response", PyVal.int 3)] "u1" "t1"
      [[("id", PyVal.str "u0"), ("method", PyVal.str "POST"),
        ("request", PyVal.int 1), ("response", PyVal.int 2),
        ("created_at", PyVal.str "t0")]]
      (PyVal.int 1) (PyVal.int 3) "POST" rfl rfl rfl rfl).2
      (by
        intro i hi
        simp only [List.mem_singleton] at hi
        subst hi
        refine ⟨PyVal.int 1, PyVal.int 2, rfl, rfl, ?_⟩
        intro hand
        have : pyEq (PyVal.int 2) (PyVal.int 3) = false := by simp [pyEq]
        rw [this] at hand
        exact absurd hand.2 (by simp))
    exact h.1

theorem lookupA_eq_none_of_not_mem {κ α : Type} [BEq κ]
    {d : List (κ × α)} {k : κ}
    (h : d.any (fun kv => kv.1 == k) = false) : lookupA k d = none := by
  induction d with
  | nil => rfl
  | cons kv rest ih =>
    obtain ⟨k', w⟩ := kv
    simp only [List.any_cons, Bool.or_eq_false_iff] at h
    simp only [lookupA, h.1, Bool.false_eq_true, if_false]
    exact ih h.2

theorem lookupA_removeKey_self {κ α : Type} [BEq κ] [LawfulBEq κ]
    {d : List (κ × α)} (hnd : noDupKeys d = true) (k : κ) :
    lookupA k (removeKey d k) = none := by
  induction d with
  | nil => rfl
  | cons kv rest ih =>
    obtain ⟨k', w⟩ := kv
    simp only [noDupKeys, Bool.and_eq_true, Bool.not_eq_true'] at hnd
    by_cases hk : k' == k
    · simp only [removeKey, hk, if_true]
      have hkk : k' = k := eq_of_beq hk
      subst hkk
      exact lookupA_eq_none_of_not_mem hnd.1
    · simp only [removeKey, hk, Bool.false_eq_true, if_false]
      simp only [lookupA, hk, Bool.false_eq_true, if_false]
      exact ih hnd.2

/-- C6: deleting the whole contract of a registered path removes the path's
entry (all of its instances) from the stored state, and every subsequent
id lookup, listing, update, deletion or dynamic handle on that path
answers 404. -/
theorem C6_delete_all_cascades (cfg : Config) (path : String)
    (insts : List Inst)
    (hnd : noDupKeys cfg = true)
    (hpath : lookupA (normalize_path path) cfg = some insts) :
    delete_all_endpoints cfg path = (removeKey cfg (normalize_path path), 200)
    ∧ lookupA (normalize_path path) (removeKey cfg (normalize_path path)) = none
    ∧ get_all_endpoints (removeKey cfg (normalize_path path)) path = (404, none)
    ∧ (∀ eid, get_endpoint (removeKey cfg (normalize_path path)) path eid =
        (404, none))
    ∧ (∀ eid patch now,
        update_endpoint (removeKey cfg (normalize_path path)) path eid patch now =
        (removeKey cfg (normalize_path path), 404, none))
    ∧ (∀ eid, delete_endpoint (removeKey cfg (normalize_path path)) path eid =
        (removeKey cfg (normalize_path path), 404))
    ∧ (∀ gen uuid now,
        handle_dynamic_request_response gen (removeKey cfg (normalize_path path))
          path uuid now =
        (removeKey cfg (normalize_path path), 404)) := by
  have hnone : lookupA (normalize_path path) (removeKey cfg (normalize_path path)) =
      none := lookupA_removeKey_self hnd (normalize_path path)
  refine ⟨?_, hnone, ?_, ?_, ?_, ?_, ?_⟩
  · simp only [delete_all_endpoints, hpath]
  · simp only [get_all_endpoints, hnone]
  · intro eid; simp only [get_endpoint, hnone]
  · intro eid patch now; simp only [update_endpoint, hnone]
  · intro eid; simp only [delete_endpoint, hnone]
  · intro gen uuid now; simp only [handle_dynamic_request_response, hnone]

/-- C6 witness: delete the /pet contract of a concrete two-instance store;
the entry is gone and lookups, updates, deletes and handling answer 404. -/
theorem C6_witness :
    delete_all_endpoints
      [("/pet", [[("id", PyVal.str "u0")], [("id", PyVal.str "u1")]])] "pet" =
      ([], 200)
    ∧ lookupA (normalize_path "pet")
        (removeKey [("/pet", [[("id", PyVal.str "u0")],
          [("id", PyVal.str "u1")]])] (normalize_path "pet")) = none
    ∧ get_endpoint (removeKey [("/pet", [[("id", PyVal.str "u0")],
        [("id", PyVal.str "u1")]])] (normalize_path "pet")) "pet" "u0" =
        (404, none) := by
  have h := C6_delete_all_cascades
    [("/pet", [[("id", PyVal.str "u0")], [("id", PyVal.str "u1")]])] "pet"
    [[("id", PyVal.str "u0")], [("id", PyVal.str "u1")]] rfl rfl
  exact ⟨h.1, h.2.1, h.2.2.2.1 "u0"⟩

theorem lookupA_setKey_other {κ α : Type} [BEq κ] [LawfulBEq κ]
    (d : List (κ × α)) {k k' : κ} (v : α) (h : k' ≠ k) :
    lookupA k' (setKey d k v) = lookupA k' d := by
  induction d with
  | nil =>
    have h2 : (k == k') = false := beq_eq_false_iff_ne.mpr (Ne.symm h)
    simp [setKey, lookupA, h2]
  | cons kv rest ih =>
    obtain ⟨k0, w⟩ := kv
    by_cases h0 : k0 = k
    · subst h0
      have h2 : (k0 == k') = false :=
        beq_eq_false_iff_ne.mpr (fun he => h he.symm)
      simp [setKey, lookupA, h2]
    · have h0b : (k0 == k) = false := beq_eq_false_iff_ne.mpr h0
      simp only [setKey, h0b, Bool.false_eq_true, if_false]
      by_cases h1 : k0 = k'
      · subst h1
        simp [lookupA]
      · have h1b : (k0 == k') = false := beq_eq_false_iff_ne.mpr h1
        simp only [lookupA, h1b, Bool.false_eq_true, if_false]
        exact ih

theorem lookupA_pyDictUpdate_notin (d : List (String × PyVal))
    {patch : List (String × PyVal)} {k : String}
    (h : patch.all (fun kv => !(kv.1 == k)) = true) :
    lookupA k (pyDictUpdate d patch) = lookupA k d := by
  induction patch generalizing d with
  | nil => rfl
  | cons kv rest ih =>
    obtain ⟨k0, v0⟩ := kv
    rw [List.all_cons, Bool.and_eq_true] at h
    show lookupA k (pyDictUpdate (setKey d k0 v0) rest) = lookupA k d
    rw [ih (setKey d k0 v0) h.2]
    have hne : k ≠ k0 := by
      intro he
      subst he
      simp at h
    exact lookupA_setKey_other d v0 hne

theorem lookupA_pyDictUpdate_mem (d : List (String × PyVal))
    {patch : List (String × PyVal)} {k : String} {v : PyVal}
    (hnd : noDupKeys patch = true) (h : lookupA k patch = some v) :
    lookupA k (pyDictUpdate d patch) = some v := by
  induction patch generalizing d with
  | nil => cases h
  | cons kv rest ih =>
    obtain ⟨k0, v0⟩ := kv
    simp only [noDupKeys, Bool.and_eq_true, Bool.not_eq_true'] at hnd
    show lookupA k (pyDictUpdate (setKey d k0 v0) rest) = some v
    by_cases hk : k0 = k
    · subst hk
      simp only [lookupA, beq_self_eq_true, if_true] at h
      injection h with hv
      subst hv
      have hall : rest.all (fun kv => !(kv.1 == k0)) = true := by
        apply List.all_eq_true.mpr
        intro kv hkv
        simp only [Bool.not_eq_true']
        apply Bool.eq_false_iff.mpr
        intro hh
        have hmem : rest.any (fun kv2 => kv2.1 == k0) = true :=
          List.any_eq_true.mpr ⟨kv, hkv, hh⟩
        rw [hmem] at hnd
        exact absurd hnd.1 (by simp)
      rw [lookupA_pyDictUpdate_notin (setKey d k0 v0) hall]
      exact lookupA_setKey_self d k0 v0
    · have hkb : (k0 == k) = false := beq_eq_false_iff_ne.mpr hk
      simp only [lookupA, hkb, Bool.false_eq_true, if_false] at h
      exact ih (setKey d k0 v0) hnd.2 h

theorem updateInList_cons_eq {inst : Inst} {v : PyVal}
    (eid : String) (patch : List (String × PyVal)) (now : String)
    (rest : List Inst) (hid : lookupA "id" inst = some v) :
    updateInList eid patch now (inst :: rest) =
      if pyEq v (.str eid) = true then
        .ok (some ((setKey (pyDictUpdate inst patch) "updated_at" (.str now)) :: rest,
          setKey (pyDictUpdate inst patch) "updated_at" (.str now)))
      else
        match updateInList eid patch now rest with
        | .error e => .error e
        | .ok none => .ok none
        | .ok (some (rest2, i2)) => .ok (some (inst :: rest2, i2)) := by
  simp only [updateInList, hid]

theorem updateInList_none {eid : String} {patch : List (String × PyVal)}
    {now : String} {insts : List Inst}
    (h : ∀ i ∈ insts, ∃ v, lookupA "id" i = some v ∧ pyEq v (.str eid) = false) :
    updateInList eid patch now insts = .ok none := by
  induction insts with
  | nil => rfl
  | cons inst rest ih =>
    obtain ⟨v, hv, hne⟩ := h inst (List.mem_cons_self _ _)
    rw [updateInList_cons_eq eid patch now rest hv, if_neg (by simp [hne]),
      ih (fun i hi => h i (List.mem_cons_of_mem _ hi))]

theorem updateInList_found {eid : String} {patch : List (String × PyVal)}
    {now : String} {pre post : List Inst} {inst : Inst} {v : PyVal}
    (hpre : ∀ i ∈ pre, ∃ w, lookupA "id" i = some w ∧ pyEq w (.str eid) = false)
    (hid : lookupA "id" inst = some v) (hm : pyEq v (.str eid) = true) :
    updateInList eid patch now (pre ++ inst :: post) =
      .ok (some (pre ++ (setKey (pyDictUpdate inst patch) "updated_at"
          (.str now)) :: post,
        setKey (pyDictUpdate inst patch) "updated_at" (.str now))) := by
  induction pre with
  | nil =>
    rw [List.nil_append, updateInList_cons_eq eid patch now post hid, if_pos hm]
    rfl
  | cons i0 rest ih =>
    obtain ⟨w, hw, hne⟩ := hpre i0 (List.mem_cons_self _ _)
    rw [List.cons_append, updateInList_cons_eq eid patch now _ hw,
      if_neg (by simp [hne]),
      ih (fun i hi => hpre i (List.mem_cons_of_mem _ hi))]
    rfl

/-- C7: update_endpoint answers 404 and leaves the stored state unchanged
(no write occurs) when the path is unknown or no instance under it carries
the requested id; when the id is found, every field of the patch is merged
into that instance (the patch value wins) and its updated_at timestamp is
set to the current time, the other instances being untouched. -/
theorem C7_update_semantics (cfg : Config) (path eid : String)
    (patch : List (String × PyVal)) (now : String) :
    (lookupA (normalize_path path) cfg = none →
      update_endpoint cfg path eid patch now = (cfg, 404, none))
    ∧ (∀ insts, lookupA (normalize_path path) cfg = some insts →
        (∀ i ∈ insts, ∃ v, lookupA "id" i = some v ∧
          pyEq v (.str eid) = false) →
        update_endpoint cfg path eid patch now = (cfg, 404, none))
    ∧ (∀ pre inst post v,
        lookupA (normalize_path path) cfg = some (pre ++ inst :: post) →
        (∀ i ∈ pre, ∃ w, lookupA "id" i = some w ∧ pyEq w (.str eid) = false) →
        lookupA "id" inst = some v → pyEq v (.str eid) = true →
        noDupKeys patch = true →
        update_endpoint cfg path eid patch now =
          (setKey cfg (normalize_path path)
            (pre ++ (setKey (pyDictUpdate inst patch) "updated_at"
              (.str now)) :: post),
           200, some (setKey (pyDictUpdate inst patch) "updated_at" (.str now)))
        ∧ lookupA "updated_at"
            (setKey (pyDictUpdate inst patch) "updated_at" (.str now)) =
            some (.str now)
        ∧ (∀ k w, lookupA k patch = some w → k ≠ "updated_at" →
            lookupA k (setKey (pyDictUpdate inst patch) "updated_at"
              (.str now)) = some w)) := by
  refine ⟨?_, ?_, ?_⟩
  · intro hnone
    simp only [update_endpoint, hnone]
  · intro insts hpath hall
    simp only [update_endpoint, hpath, updateInList_none hall]
  · intro pre inst post v hpath hpre hid hm hnd
    refine ⟨?_, lookupA_setKey_self _ _ _, ?_⟩
    · simp only [update_endpoint, hpath, updateInList_found hpre hid hm]
    · intro k w hkw hne
      rw [lookupA_setKey_other _ _ hne]
      exact lookupA_pyDictUpdate_mem inst hnd hkw

/-- C7 witness: updating a missing path and a missing id answer 404 with
the state unchanged; updating the stored instance u0 merges the patch field
and refreshes updated_at. -/
theorem C7_witness :
    update_endpoint [] "pet" "u0" [("response", PyVal.int 9)] "t9" =
      ([], 404, none)
    ∧ update_endpoint [("/pet", [[("id", PyVal.str "u0")]])] "pet" "zz"
        [("response", PyVal.int 9)] "t9" =
      ([("/pet", [[("id", PyVal.str "u0")]])], 404, none)
    ∧ update_endpoint
        [("/pet", [[("id", PyVal.str "u0"), ("response", PyVal.int 2)]])]
        "pet" "u0" [("response", PyVal.int 9)] "t9" =
      ([("/pet", [[("id", PyVal.str "u0"), ("response", PyVal.int 9),
        ("updated_at", PyVal.str "t9")]])],
       200, some [("id", PyVal.str "u0"), ("response", PyVal.int 9),
        ("updated_at", PyVal.str "t9")])
    ∧ lookupA "response"
        (setKey (pyDictUpdate [("id", PyVal.str "u0"), ("response", PyVal.int 2)]
          [("response", PyVal.int 9)]) "updated_at" (PyVal.str "t9")) =
        some (PyVal.int 9) := by
  refine ⟨?_, ?_, ?_, ?_⟩
  · exact (C7_update_semantics [] "pet" "u0" [("response", PyVal.int 9)]
      "t9").1 rfl
  · exact (C7_update_semantics [("/pet", [[("id", PyVal.str "u0")]])] "pet"
      "zz" [("response", PyVal.int 9)] "t9").2.1 [[("id", PyVal.str "u0")]] rfl
      (by
        intro i hi
        simp only [List.mem_singleton] at hi
        subst hi
        exact ⟨PyVal.str "u0", rfl, by simp [pyEq]⟩)
  · exact ((C7_update_semantics
      [("/pet", [[("id", PyVal.str "u0"), ("response", PyVal.int 2)]])]
      "pet" "u0" [("response", PyVal.int 9)] "t9").2.2
      [] [("id", PyVal.str "u0"), ("response", PyVal.int 2)] []
      (PyVal.str "u0") rfl (by intro i hi; cases hi) rfl (by simp [pyEq]) rfl).1
  · exact ((C7_update_semantics
      [("/pet", [[("id", PyVal.str "u0"), ("response", PyVal.int 2)]])]
      "pet" "u0" [("response", PyVal.int 9)] "t9").2.2
      [] [("id", PyVal.str "u0"), ("response", PyVal.int 2)] []
      (PyVal.str "u0") rfl (by intro i hi; cases hi) rfl (by simp [pyEq]) rfl).2.2
      "response" (PyVal.int 9) rfl (by decide)

theorem findById_cons_eq {inst : Inst} {v : PyVal} (eid : String)
    (rest : List Inst) (hid : lookupA "id" inst = some v) :
    findById eid (inst :: rest) =
      if pyEq v (.str eid) = true then .ok (some inst) else findById eid rest := by
  simp only [findById, hid]

theorem findById_found {eid : String} {insts : List Inst} {inst : Inst}
    (h : findById eid insts = .ok (some inst)) :
    ∃ v, lookupA "id" inst = some v ∧ pyEq v (.str eid) = true := by
  induction insts with
  | nil => cases h
  | cons i0 rest ih =>
    cases hid : lookupA "id" i0 with
    | none =>
      unfold findById at h
      rw [hid] at h
      cases h
    | some v =>
      rw [findById_cons_eq eid rest hid] at h
      by_cases hm : pyEq v (.str eid) = true
      · rw [if_pos hm] at h
        injection h with h2
        injection h2 with h3
        subst h3
        exact ⟨v, hid, hm⟩
      · rw [if_neg hm] at h
        exact ih h

theorem deleteInList_cons_eq {inst : Inst} {v : PyVal} (eid : String)
    (rest : List Inst) (hid : lookupA "id" inst = some v) :
    deleteInList eid (inst :: rest) =
      if pyEq v (.str eid) = true then .ok (some rest)
      else
        match deleteInList eid rest with
        | .error e => .error e
        | .ok none => .ok none
        | .ok (some rest2) => .ok (some (inst :: rest2)) := by
  simp only [deleteInList, hid]

theorem deleteInList_preserves_null {eid : String} {insts insts2 : List Inst}
    {i : Inst} (hmem : i ∈ insts) (hnull : lookupA "id" i = some PyVal.null)
    (h : deleteInList eid insts = .ok (some insts2)) : i ∈ insts2 := by
  induction insts generalizing insts2 with
  | nil => cases hmem
  | cons i0 rest ih =>
    cases hid : lookupA "id" i0 with
    | none =>
      unfold deleteInList at h
      rw [hid] at h
      cases h
    | some v =>
      rw [deleteInList_cons_eq eid rest hid] at h
      by_cases hm : pyEq v (.str eid) = true
      · rw [if_pos hm] at h
        injection h with h2
        injection h2 with h3
        subst h3
        rcases List.mem_cons.mp hmem with he | he
        · subst he
          rw [hnull] at hid
          injection hid with h4
          rw [← h4] at hm
          exact absurd hm (by simp [pyEq])
        · exact he
      · rw [if_neg hm] at h
        cases hrec : deleteInList eid rest with
        | error e => rw [hrec] at h; cases h
        | ok o =>
          cases o with
          | none => rw [hrec] at h; cases h
          | some rest2 =>
            rw [hrec] at h
            injection h with h2
            injection h2 with h3
            subst h3
            rcases List.mem_cons.mp hmem with he | he
            · subst he; exact List.mem_cons_self _ _
            · exact List.mem_cons_of_mem _ (ih he hrec)

theorem updateInList_preserves_null {eid now2 : String}
    {patch : List (String × PyVal)} {insts insts2 : List Inst}
    {inst2 i : Inst} (hmem : i ∈ insts)
    (hnull : lookupA "id" i = some PyVal.null)
    (h : updateInList eid patch now2 insts = .ok (some (insts2, inst2))) :
    i ∈ insts2 := by
  induction insts generalizing insts2 inst2 with
  | nil => cases hmem
  | cons i0 rest ih =>
    cases hid : lookupA "id" i0 with
    | none =>
      unfold updateInList at h
      rw [hid] at h
      cases h
    | some v =>
      rw [updateInList_cons_eq eid patch now2 rest hid] at h
      by_cases hm : pyEq v (.str eid) = true
      · rw [if_pos hm] at h
        injection h with h2
        injection h2 with h3
        have h4 := congrArg Prod.fst h3
        simp only at h4
        subst h4
        rcases List.mem_cons.mp hmem with he | he
        · subst he
          rw [hnull] at hid
          injection hid with h5
          rw [← h5] at hm
          exact absurd hm (by simp [pyEq])
        · exact List.mem_cons_of_mem _ he
      · rw [if_neg hm] at h
        cases hrec : updateInList eid patch now2 rest with
        | error e => rw [hrec] at h; cases h
        | ok o =>
          cases o with
          | none => rw [hrec] at h; cases h
          | some p =>
            obtain ⟨rest2, j2⟩ := p
            rw [hrec] at h
            injection h with h2
            injection h2 with h3
            have h4 := congrArg Prod.fst h3
            simp only at h4
            subst h4
            rcases List.mem_cons.mp hmem with he | he
            · subst he; exact List.mem_cons_self _ _
            · exact List.mem_cons_of_mem _ (ih he hrec)

/-- C10: the first registration under a path in src/test.py stores the new
instance with id None (PyVal.null) while later registrations receive the
uuid string; and the id-addressed routes compare the stored id with the
string path segment by Python ==, which is never true for None, so a fetch
never returns the null-id instance and the id-based delete and update loops
always leave it in place. -/
theorem C10_first_instance_unaddressable (cfg : Config) (path : String)
    (data : List (String × PyVal)) (uuid now : String) (req resp : PyVal)
    (m : String)
    (hm : pyGetMethod data = .ok m)
    (hreq : lookupA "request" data = some req)
    (hresp : lookupA "response" data = some resp) :
    ((lookupA (normalize_path path) cfg = none ∨
        lookupA (normalize_path path) cfg = some []) →
      test_register_endpoint cfg path data uuid now =
        (setKey cfg (normalize_path path)
          [[("id", PyVal.null), ("method", .str m), ("request_schema", req),
            ("response_schema", resp), ("created_at", .str now)]], .success))
    ∧ (∀ i0 rest, lookupA (normalize_path path) cfg = some (i0 :: rest) →
      test_register_endpoint cfg path data uuid now =
        (setKey cfg (normalize_path path)
          ((i0 :: rest) ++ [[("id", .str uuid), ("method", .str m),
            ("request_schema", req), ("response_schema", resp),
            ("created_at", .str now)]]), .success))
    ∧ (∀ cfg2 path2 eid inst, (get_endpoint cfg2 path2 eid).2 = some inst →
        lookupA "id" inst ≠ some PyVal.null)
    ∧ (∀ insts i eid insts2, i ∈ insts → lookupA "id" i = some PyVal.null →
        deleteInList eid insts = .ok (some insts2) → i ∈ insts2)
    ∧ (∀ insts i eid patch now2 insts2 inst2, i ∈ insts →
        lookupA "id" i = some PyVal.null →
        updateInList eid patch now2 insts = .ok (some (insts2, inst2)) →
        i ∈ insts2) := by
  refine ⟨?_, ?_, ?_, ?_, ?_⟩
  · intro hcase
    rcases hcase with hc | hc <;>
      simp [test_register_endpoint, hm, hreq, hresp, hc]
  · intro i0 rest hc
    simp [test_register_endpoint, hm, hreq, hresp, hc]
  · intro cfg2 path2 eid inst hget heq
    simp only [get_endpoint] at hget
    cases hpath : lookupA (normalize_path path2) cfg2 with
    | none => simp [hpath] at hget
    | some insts =>
      rw [hpath] at hget
      cases hfind : findById eid insts with
      | error e => simp [hfind] at hget
      | ok o =>
        cases o with
        | none => simp [hfind] at hget
        | some inst2 =>
          simp only [hfind] at hget
          have hget2 : inst2 = inst := by simpa using hget
          subst hget2
          obtain ⟨v, hv, hpe⟩ := findById_found hfind
          rw [heq] at hv
          injection hv with h3
          rw [← h3] at hpe
          exact absurd hpe (by simp [pyEq])
  · intro insts i eid insts2 hmem hnull h
    exact deleteInList_preserves_null hmem hnull h
  · intro insts i eid patch now2 insts2 inst2 hmem hnull h
    exact updateInList_preserves_null hmem hnull h

/-- C10 witness: first registration under /pet stores id None; the second
stores the uuid string; fetching the null-id instance by any id fails; a
successful delete of the uuid instance leaves the null-id one in place. -/
theorem C10_witness :
    test_register_endpoint [] "pet"
      [("request", PyVal.int 1), ("response", PyVal.int 2)] "u1" "t1" =
      ([("/pet", [[("id", PyVal.null), ("method", PyVal.str "POST"),
        ("request_schema", PyVal.int 1), ("response_schema", PyVal.int 2),
        ("created_at", PyVal.str "t1")]])], RegResp.success)
    ∧ test_register_endpoint
      [("/pet", [[("id", PyVal.null)]])] "pet"
      [("request", PyVal.int 1), ("response", PyVal.int 2)] "u2" "t2" =
      ([("/pet", [[("id", PyVal.null)],
        [("id", PyVal.str "u2"), ("method", PyVal.str "POST"),
        ("request_schema", PyVal.int 1), ("response_schema", PyVal.int 2),
        ("created_at", PyVal.str "t2")]])], RegResp.success)
    ∧ (∀ inst, (get_endpoint [("/pet", [[("id", PyVal.null)]])] "pet" "u1").2 =
        some inst → lookupA "id" inst ≠ some PyVal.null)
    ∧ ([("id", PyVal.null)] ∈
        ([[("id", PyVal.null)], [("id", PyVal.str "u2")]] : List Inst) →
      deleteInList "u2" [[("id", PyVal.null)], [("id", PyVal.str "u2")]] =
        .ok (some [[("id", PyVal.null)]]) →
      [("id", PyVal.null)] ∈ ([[("id", PyVal.null)]] : List Inst)) := by
  have h := C10_first_instance_unaddressable [] "pet"
    [("request", PyVal.int 1), ("response", PyVal.int 2)] "u1" "t1"
    (PyVal.int 1) (PyVal.int 2) "POST" rfl rfl rfl
  have h2 := C10_first_instance_unaddressable
    [("/pet", [[("id", PyVal.null)]])] "pet"
    [("request", PyVal.int 1), ("response", PyVal.int 2)] "u2" "t2"
    (PyVal.int 1) (PyVal.int 2) "POST" rfl rfl rfl
  refine ⟨h.1 (Or.inl rfl), h2.2.1 [("id", PyVal.null)] [] rfl, ?_, ?_⟩
  · intro inst hget
    exact h.2.2.1 [("/pet", [[("id", PyVal.null)]])] "pet" "u1" inst hget
  · intro hmem hdel
    exact h.2.2.2.1 [[("id", PyVal.null)], [("id", PyVal.str "u2")]]
      [("id", PyVal.null)] "u2" [[("id", PyVal.null)]] hmem rfl hdel

theorem mem_of_lookupA {κ α : Type} [BEq κ] [LawfulBEq κ]
    {d : List (κ × α)} {k : κ} {v : α} (h : lookupA k d = some v) :
    (k, v) ∈ d := by
  induction d with
  | nil => cases h
  | cons kv rest ih =>
    obtain ⟨k0, w⟩ := kv
    by_cases hk : k0 == k
    · simp only [lookupA, hk, if_true] at h
      injection h with h2
      subst h2
      have : k0 = k := eq_of_beq hk
      subst this
      exact List.mem_cons_self _ _
    · simp only [lookupA, hk, Bool.false_eq_true, if_false] at h
      exact List.mem_cons_of_mem _ (ih h)

theorem mem_setKey {κ α : Type} [BEq κ] [LawfulBEq κ]
    {d : List (κ × α)} {k : κ} {v : α} {kv : κ × α}
    (h : kv ∈ setKey d k v) : kv = (k, v) ∨ kv ∈ d := by
  induction d with
  | nil =>
    simp only [setKey, List.mem_singleton] at h
    exact Or.inl h
  | cons kv0 rest ih =>
    obtain ⟨k0, w⟩ := kv0
    by_cases hk : k0 == k
    · simp only [setKey, hk, if_true] at h
      rcases List.mem_cons.mp h with he | he
      · subst he
        have : k0 = k := eq_of_beq hk
        subst this
        exact Or.inl rfl
      · exact Or.inr (List.mem_cons_of_mem _ he)
    · simp only [setKey, hk, Bool.false_eq_true, if_false] at h
      rcases List.mem_cons.mp h with he | he
      · subst he; exact Or.inr (List.mem_cons_self _ _)
      · rcases ih he with h2 | h2
        · exact Or.inl h2
        · exact Or.inr (List.mem_cons_of_mem _ h2)

theorem any_setKey {κ α : Type} [BEq κ] [LawfulBEq κ]
    (d : List (κ × α)) (k : κ) (v : α) (k' : κ) :
    (setKey d k v).any (fun kv => kv.1 == k') =
      (d.any (fun kv => kv.1 == k') || (k == k')) := by
  induction d with
  | nil => simp [setKey]
  | cons kv0 rest ih =>
    obtain ⟨k0, w⟩ := kv0
    by_cases hk : k0 == k
    · have hkk : k0 = k := eq_of_beq hk
      subst hkk
      simp only [setKey, beq_self_eq_true, if_true, List.any_cons]
      cases h1 : (k0 == k') <;>
        cases h2 : rest.any (fun kv => kv.1 == k') <;> simp [h1, h2]
    · simp only [setKey, hk, Bool.false_eq_true, if_false, List.any_cons, ih]
      cases h0 : (k0 == k') <;> simp

theorem noDupKeys_setKey {κ α : Type} [BEq κ] [LawfulBEq κ]
    {d : List (κ × α)} (k : κ) (v : α) (h : noDupKeys d = true) :
    noDupKeys (setKey d k v) = true := by
  induction d with
  | nil => simp [setKey, noDupKeys]
  | cons kv0 rest ih =>
    obtain ⟨k0, w⟩ := kv0
    simp only [noDupKeys, Bool.and_eq_true, Bool.not_eq_true'] at h
    by_cases hk : k0 == k
    · simp only [setKey, hk, if_true, noDupKeys, Bool.and_eq_true,
        Bool.not_eq_true']
      exact ⟨h.1, h.2⟩
    · simp only [setKey, hk, Bool.false_eq_true, if_false, noDupKeys,
        Bool.and_eq_true, Bool.not_eq_true']
      refine ⟨?_, ih h.2⟩
      rw [any_setKey]
      have hkk0 : (k == k0) = false := by
        apply Bool.eq_false_iff.mpr
        intro hh
        have he : k = k0 := eq_of_beq hh
        subst he
        exact hk (beq_self_eq_true k)
      rw [h.1, hkk0]
      rfl

theorem mem_removeKey {κ α : Type} [BEq κ]
    {d : List (κ × α)} {k : κ} {kv : κ × α}
    (h : kv ∈ removeKey d k) : kv ∈ d := by
  induction d with
  | nil => cases h
  | cons kv0 rest ih =>
    obtain ⟨k0, w⟩ := kv0
    by_cases hk : k0 == k
    · simp only [removeKey, hk, if_true] at h
      exact List.mem_cons_of_mem _ h
    · simp only [removeKey, hk, Bool.false_eq_true, if_false] at h
      rcases List.mem_cons.mp h with he | he
      · subst he; exact List.mem_cons_self _ _
      · exact List.mem_cons_of_mem _ (ih he)

theorem noDupKeys_removeKey {κ α : Type} [BEq κ]
    {d : List (κ × α)} (k : κ) (h : noDupKeys d = true) :
    noDupKeys (removeKey d k) = true := by
  induction d with
  | nil => rfl
  | cons kv0 rest ih =>
    obtain ⟨k0, w⟩ := kv0
    simp only [noDupKeys, Bool.and_eq_true, Bool.not_eq_true'] at h
    by_cases hk : k0 == k
    · simp only [removeKey, hk, if_true]
      exact h.2
    · simp only [removeKey, hk, Bool.false_eq_true, if_false, noDupKeys,
        Bool.and_eq_true, Bool.not_eq_true']
      refine ⟨?_, ih h.2⟩
      apply Bool.eq_false_iff.mpr
      intro hh
      obtain ⟨kv2, hkv2, hbeq⟩ := List.any_eq_true.mp hh
      have : rest.any (fun kv => kv.1 == k0) = true :=
        List.any_eq_true.mpr ⟨kv2, mem_removeKey hkv2, hbeq⟩
      rw [this] at h
      exact absurd h.1 (by simp)

/-- A stored entity of app.py's GenericAPIHandler is a Python dict. -/
abbrev Obj := List (String × PyVal)

/-- GenericAPIHandler state (src/app.py lines 9-13): per entity type an
int-keyed entity dict and an id counter. -/
structure AppState where
  store : List (String × List (Int × Obj))
  idCounters : List (String × Int)

/-- get_entity_type (src/app.py lines 15-18): parts = path.split('/');
parts[1] if len(parts) > 1 else 'default'. -/
def get_entity_type (path : String) : String :=
  match path.splitOn "/" with
  | _ :: p :: _ => p
  | _ => "default"

/-- get_or_create_store (src/app.py lines 20-25): first touch of an entity
type installs an empty store and the counter 1. -/
def appGetOrCreate (st : AppState) (et : String) : AppState :=
  match lookupA et st.store with
  | some _ => st
  | none => ⟨setKey st.store et [], setKey st.idCounters et 1⟩

/-- GenericAPIHandler.create (src/app.py lines 27-37): assign the current
counter as id (also into the entity's id field), store, increment. The
unreachable mismatch arm models a KeyError propagating to the route's
except (400). -/
def appCreate (st : AppState) (path : String) (data : Obj) :
    AppState × Option Obj × Nat :=
  let et := get_entity_type path
  let st1 := appGetOrCreate st et
  match lookupA et st1.store, lookupA et st1.idCounters with
  | some storeEt, some cnt =>
      let data2 := setKey data "id" (.int cnt)
      (⟨setKey st1.store et (setKey storeEt cnt data2),
        setKey st1.idCounters et (cnt + 1)⟩, some data2, 201)
  | _, _ => (st1, none, 400)

/-- GenericAPIHandler.update (src/app.py lines 55-65): 404 when the id is
absent, else data['id'] = entity_id and the dict replaces the stored one. -/
def appUpdate (st : AppState) (path : String) (id : Int) (data : Obj) :
    AppState × Option Obj × Nat :=
  let et := get_entity_type path
  let st1 := appGetOrCreate st et
  match lookupA et st1.store with
  | some storeEt =>
      match lookupA id storeEt with
      | none => (st1, none, 404)
      | some _ =>
          let data2 := setKey data "id" (.int id)
          (⟨setKey st1.store et (setKey storeEt id data2), st1.idCounters⟩,
            some data2, 200)
  | none => (st1, none, 400)

/-- GenericAPIHandler.delete (src/app.py lines 67-76): 404 when the id is
absent, else pop it. -/
def appDelete (st : AppState) (path : String) (id : Int) : AppState × Nat :=
  let et := get_entity_type path
  let st1 := appGetOrCreate st et
  match lookupA et st1.store with
  | some storeEt =>
      match lookupA id storeEt with
      | none => (st1, 404)
      | some _ => (⟨setKey st1.store et (removeKey storeEt id), st1.idCounters⟩, 200)
  | none => (st1, 400)

/-- The mutating operations of the in-memory entity store. -/
inductive AppOp where
  | create (path : String) (data : Obj)
  | update (path : String) (id : Int) (data : Obj)
  | delete (path : String) (id : Int)

/-- One operation applied to the state. -/
def appStep (st : AppState) : AppOp → AppState
  | .create p d => (appCreate st p d).1
  | .update p i d => (appUpdate st p i d).1
  | .delete p i => (appDelete st p i).1

/-- A whole operation sequence applied to the state. -/
def appRun (st : AppState) (ops : List AppOp) : AppState :=
  ops.foldl appStep st

/-- The state of a fresh GenericAPIHandler: both dicts empty. -/
def initState : AppState := ⟨[], []⟩

/-- The entity type an operation addresses. -/
def opEntity : AppOp → String
  | .create p _ => get_entity_type p
  | .update p _ _ => get_entity_type p
  | .delete p _ => get_entity_type p

/-- How many creates of the sequence address the entity type. -/
def countCreates (et : String) (ops : List AppOp) : Nat :=
  (ops.filter (fun op => match op with
    | .create p _ => get_entity_type p == et
    | _ => false)).length

/-- Whether any operation of the sequence addresses the entity type. -/
def touched (et : String) (ops : List AppOp) : Bool :=
  ops.any (fun op => opEntity op == et)

/-- The invariant of the in-memory store: for every entity type, either it
was never touched (absent from both dicts) or its counter is at least 1,
its keys are distinct, and every stored entity sits under a positive key
smaller than the counter with its id field equal to that key. -/
def storeInv (st : AppState) : Prop :=
  ∀ et, match lookupA et st.store, lookupA et st.idCounters with
    | none, none => True
    | some entities, some cnt =>
        1 ≤ cnt ∧ noDupKeys entities = true ∧
        ∀ kv ∈ entities, 0 < kv.1 ∧ kv.1 < cnt ∧
          lookupA "id" kv.2 = some (.int kv.1)
    | _, _ => False

theorem storeInv_getOrCreate {st : AppState} (h : storeInv st) (et : String) :
    storeInv (appGetOrCreate st et) ∧
    ∃ entities cnt,
      lookupA et (appGetOrCreate st et).store = some entities ∧
      lookupA et (appGetOrCreate st et).idCounters = some cnt ∧
      1 ≤ cnt ∧ noDupKeys entities = true ∧
      ∀ kv ∈ entities, 0 < kv.1 ∧ kv.1 < cnt ∧
        lookupA "id" kv.2 = some (.int kv.1) := by
  cases hstore : lookupA et st.store with
  | some entities =>
    have hgo : appGetOrCreate st et = st := by
      simp [appGetOrCreate, hstore]
    cases hcnt : lookupA et st.idCounters with
    | none =>
      have h2 := h et
      simp only [hstore, hcnt] at h2
    | some cnt =>
      have h2 := h et
      simp only [hstore, hcnt] at h2
      exact ⟨by rw [hgo]; exact h, entities, cnt, by rw [hgo]; exact hstore,
        by rw [hgo]; exact hcnt, h2.1, h2.2.1, h2.2.2⟩
  | none =>
    have hgo : appGetOrCreate st et =
        ⟨setKey st.store et [], setKey st.idCounters et 1⟩ := by
      simp [appGetOrCreate, hstore]
    rw [hgo]
    constructor
    · intro et'
      by_cases he : et' = et
      · subst he
        simp only [lookupA_setKey_self]
        refine ⟨le_refl 1, rfl, ?_⟩
        intro kv hkv
        cases hkv
      · simp only [lookupA_setKey_other _ _ he]
        exact h et'
    · exact ⟨[], 1, lookupA_setKey_self _ _ _, lookupA_setKey_self _ _ _,
        le_refl 1, rfl, fun kv hkv => absurd hkv (List.not_mem_nil kv)⟩

theorem storeInv_create {st : AppState} (h : storeInv st) (p : String)
    (d : Obj) : storeInv (appCreate st p d).1 := by
  obtain ⟨hinv1, entities, cnt, hs, hc, h1, hnd, hmem⟩ :=
    storeInv_getOrCreate h (get_entity_type p)
  have heq : (appCreate st p d).1 =
      ⟨setKey (appGetOrCreate st (get_entity_type p)).store (get_entity_type p)
        (setKey entities cnt (setKey d "id" (.int cnt))),
       setKey (appGetOrCreate st (get_entity_type p)).idCounters
        (get_entity_type p) (cnt + 1)⟩ := by
    simp only [appCreate, hs, hc]
  rw [heq]
  intro et'
  by_cases he : et' = get_entity_type p
  · subst he
    simp only [lookupA_setKey_self]
    refine ⟨by omega, noDupKeys_setKey cnt _ hnd, ?_⟩
    intro kv hkv
    rcases mem_setKey hkv with h2 | h2
    · subst h2
      exact ⟨by omega, by omega, lookupA_setKey_self _ _ _⟩
    · obtain ⟨hp1, hp2, hp3⟩ := hmem kv h2
      exact ⟨hp1, by omega, hp3⟩
  · simp only [lookupA_setKey_other _ _ he]
    exact hinv1 et'

theorem storeInv_update {st : AppState} (h : storeInv st) (p : String)
    (id : Int) (d : Obj) : storeInv (appUpdate st p id d).1 := by
  obtain ⟨hinv1, entities, cnt, hs, hc, h1, hnd, hmem⟩ :=
    storeInv_getOrCreate h (get_entity_type p)
  cases hid : lookupA id entities with
  | none =>
    have heq : (appUpdate st p id d).1 = appGetOrCreate st (get_entity_type p) := by
      simp only [appUpdate, hs, hid]
    rw [heq]
    exact hinv1
  | some w =>
    have heq : (appUpdate st p id d).1 =
        ⟨setKey (appGetOrCreate st (get_entity_type p)).store (get_entity_type p)
          (setKey entities id (setKey d "id" (.int id))),
         (appGetOrCreate st (get_entity_type p)).idCounters⟩ := by
      simp only [appUpdate, hs, hid]
    rw [heq]
    intro et'
    by_cases he : et' = get_entity_type p
    · subst he
      simp only [lookupA_setKey_self, hc]
      obtain ⟨hb1, hb2, _⟩ := hmem (id, w) (mem_of_lookupA hid)
      refine ⟨h1, noDupKeys_setKey id _ hnd, ?_⟩
      intro kv hkv
      rcases mem_setKey hkv with h2 | h2
      · subst h2
        exact ⟨hb1, hb2, lookupA_setKey_self _ _ _⟩
      · exact hmem kv h2
    · simp only [lookupA_setKey_other _ _ he]
      exact hinv1 et'

theorem storeInv_delete {st : AppState} (h : storeInv st) (p : String)
    (id : Int) : storeInv (appDelete st p id).1 := by
  obtain ⟨hinv1, entities, cnt, hs, hc, h1, hnd, hmem⟩ :=
    storeInv_getOrCreate h (get_entity_type p)
  cases hid : lookupA id entities with
  | none =>
    have heq : (appDelete st p id).1 = appGetOrCreate st (get_entity_type p) := by
      simp only [appDelete, hs, hid]
    rw [heq]
    exact hinv1
  | some w =>
    have heq : (appDelete st p id).1 =
        ⟨setKey (appGetOrCreate st (get_entity_type p)).store (get_entity_type p)
          (removeKey entities id),
         (appGetOrCreate st (get_entity_type p)).idCounters⟩ := by
      simp only [appDelete, hs, hid]
    rw [heq]
    intro et'
    by_cases he : et' = get_entity_type p
    · subst he
      simp only [lookupA_setKey_self, hc]
      exact ⟨h1, noDupKeys_removeKey id hnd,
        fun kv hkv => hmem kv (mem_removeKey hkv)⟩
    · simp only [lookupA_setKey_other _ _ he]
      exact hinv1 et'

theorem storeInv_step {st : AppState} (h : storeInv st) (op : AppOp) :
    storeInv (appStep st op) := by
  cases op with
  | create p d => exact storeInv_create h p d
  | update p i d => exact storeInv_update h p i d
  | delete p i => exact storeInv_delete h p i

theorem storeInv_run {st : AppState} (h : storeInv st) (ops : List AppOp) :
    storeInv (appRun st ops) := by
  induction ops generalizing st with
  | nil => exact h
  | cons op rest ih => exact ih (storeInv_step h op)

theorem counters_step {st : AppState} (h : storeInv st) (op : AppOp)
    (et : String) :
    (opEntity op = et →
      lookupA et (appStep st op).idCounters =
        some ((match lookupA et st.idCounters with
               | some c => c
               | none => 1) +
              (match op with | .create _ _ => (1 : Int) | _ => 0)))
    ∧ (opEntity op ≠ et →
      lookupA et (appStep st op).idCounters = lookupA et st.idCounters) := by
  obtain ⟨hinv1, entities, cnt, hs, hc, h1, hnd, hmem⟩ :=
    storeInv_getOrCreate h (opEntity op)
  have hcnt : cnt = (match lookupA (opEntity op) st.idCounters with
      | some c => c
      | none => 1) := by
    cases hstore : lookupA (opEntity op) st.store with
    | some entities0 =>
      have hgo : appGetOrCreate st (opEntity op) = st := by
        simp [appGetOrCreate, hstore]
      rw [hgo] at hc
      rw [hc]
    | none =>
      have h2 := h (opEntity op)
      simp only [hstore] at h2
      cases hcx : lookupA (opEntity op) st.idCounters with
      | some c => rw [hcx] at h2; exact absurd h2 not_false
      | none =>
        have hgo : appGetOrCreate st (opEntity op) =
            ⟨setKey st.store (opEntity op) [],
             setKey st.idCounters (opEntity op) 1⟩ := by
          simp [appGetOrCreate, hstore]
        rw [hgo] at hc
        rw [lookupA_setKey_self] at hc
        injection hc with hc2
        rw [← hc2]
  have hother : ∀ et2, et2 ≠ opEntity op →
      lookupA et2 (appGetOrCreate st (opEntity op)).idCounters =
        lookupA et2 st.idCounters := by
    intro et2 hne
    cases hstore : lookupA (opEntity op) st.store with
    | some entities0 =>
      have hgo : appGetOrCreate st (opEntity op) = st := by
        simp [appGetOrCreate, hstore]
      rw [hgo]
    | none =>
      have hgo : appGetOrCreate st (opEntity op) =
          ⟨setKey st.store (opEntity op) [],
           setKey st.idCounters (opEntity op) 1⟩ := by
        simp [appGetOrCreate, hstore]
      rw [hgo]
      exact lookupA_setKey_other _ _ hne
  cases op with
  | create p d =>
    simp only [opEntity] at hs hc hcnt hother ⊢
    have hstepeq : appStep st (.create p d) =
        ⟨setKey (appGetOrCreate st (get_entity_type p)).store (get_entity_type p)
          (setKey entities cnt (setKey d "id" (.int cnt))),
         setKey (appGetOrCreate st (get_entity_type p)).idCounters
          (get_entity_type p) (cnt + 1)⟩ := by
      show (appCreate st p d).1 = _
      simp only [appCreate, hs, hc]
    constructor
    · intro he
      subst he
      rw [hstepeq]
      show lookupA (get_entity_type p)
        (setKey (appGetOrCreate st (get_entity_type p)).idCounters
          (get_entity_type p) (cnt + 1)) = _
      rw [lookupA_setKey_self, hcnt]
    · intro hne
      rw [hstepeq]
      show lookupA et (setKey (appGetOrCreate st (get_entity_type p)).idCounters
        (get_entity_type p) (cnt + 1)) = _
      rw [lookupA_setKey_other _ _ (fun h2 => hne h2.symm)]
      exact hother et (fun h2 => hne h2.symm)
  | update p i d =>
    simp only [opEntity] at hs hc hcnt hother ⊢
    have hbase : (appStep st (.update p i d)).idCounters =
        (appGetOrCreate st (get_entity_type p)).idCounters := by
      show (appUpdate st p i d).1.idCounters = _
      cases hid : lookupA i entities with
      | none => simp only [appUpdate, hs, hid]
      | some w => simp only [appUpdate, hs, hid]
    constructor
    · intro he
      subst he
      rw [hbase, hc, hcnt]
      simp
    · intro hne
      rw [hbase]
      exact hother et (fun h2 => hne h2.symm)
  | delete p i =>
    simp only [opEntity] at hs hc hcnt hother ⊢
    have hbase : (appStep st (.delete p i)).idCounters =
        (appGetOrCreate st (get_entity_type p)).idCounters := by
      show (appDelete st p i).1.idCounters = _
      cases hid : lookupA i entities with
      | none => simp only [appDelete, hs, hid]
      | some w => simp only [appDelete, hs, hid]
    constructor
    · intro he
      subst he
      rw [hbase, hc, hcnt]
      simp
    · intro hne
      rw [hbase]
      exact hother et (fun h2 => hne h2.symm)

theorem counters_run (ops : List AppOp) : ∀ (st : AppState), storeInv st →
    ∀ et, lookupA et (appRun st ops).idCounters =
      (match lookupA et st.idCounters with
       | some c => some (c + (countCreates et ops : Int))
       | none =>
           if touched et ops then some (1 + (countCreates et ops : Int))
           else none) := by
  induction ops with
  | nil =>
    intro st hinv et
    cases hc : lookupA et st.idCounters <;>
      simp [appRun, countCreates, touched, hc]
  | cons op rest ih =>
    intro st hinv et
    have hrun : appRun st (op :: rest) = appRun (appStep st op) rest := rfl
    rw [hrun, ih (appStep st op) (storeInv_step hinv op) et]
    obtain ⟨hseq, hsne⟩ := counters_step hinv op et
    by_cases he : opEntity op = et
    · rw [hseq he]
      cases op with
      | create p d =>
        have hbeq : (get_entity_type p == et) = true := by
          simp only [opEntity] at he
          exact beq_iff_eq.mpr he
        cases hcx : lookupA et st.idCounters with
        | some c =>
          simp only [hcx, countCreates, List.filter_cons, hbeq, if_true,
            List.length_cons, Option.some.injEq]
          push_cast
          ring
        | none =>
          have htouch : touched et (.create p d :: rest) = true := by
            simp [touched, opEntity, hbeq]
          simp only [hcx, htouch, if_true, countCreates, List.filter_cons,
            hbeq, if_true, List.length_cons, Option.some.injEq]
          push_cast
          ring
      | update p i d =>
        have hcc : countCreates et (.update p i d :: rest) =
            countCreates et rest := rfl
        have htouch : touched et (.update p i d :: rest) = true := by
          simp only [opEntity] at he
          simp [touched, List.any_cons, opEntity, he]
        cases hcx : lookupA et st.idCounters with
        | some c => simp [hcx, hcc, htouch]
        | none => simp [hcx, hcc, htouch]
      | delete p i =>
        have hcc : countCreates et (.delete p i :: rest) =
            countCreates et rest := rfl
        have htouch : touched et (.delete p i :: rest) = true := by
          simp only [opEntity] at he
          simp [touched, List.any_cons, opEntity, he]
        cases hcx : lookupA et st.idCounters with
        | some c => simp [hcx, hcc, htouch]
        | none => simp [hcx, hcc, htouch]
    · rw [hsne he]
      have hbeq : (opEntity op == et) = false := beq_eq_false_iff_ne.mpr he
      have htouch : touched et (op :: rest) = touched et rest := by
        simp [touched, List.any_cons, hbeq]
      have hcc : countCreates et (op :: rest) = countCreates et rest := by
        cases op with
        | create p d =>
          have : (get_entity_type p == et) = false := by
            simpa [opEntity] using hbeq
          simp [countCreates, List.filter_cons, this]
        | update p i d => rfl
        | delete p i => rfl
      rw [htouch, hcc]

/-- C9: after any sequence of create, update and delete operations on a
fresh GenericAPIHandler (src/app.py), every entity type satisfies: its id
counter is at least 1 and strictly greater than every stored key, the keys
are distinct positive integers, every stored entity's id field equals its
key, and the counter equals 1 plus the number of creates performed for that
type — so creates hand out ids sequentially from 1. -/
theorem C9_store_invariant (ops : List AppOp) :
    storeInv (appRun initState ops)
    ∧ ∀ et, lookupA et (appRun initState ops).idCounters =
        (if touched et ops then some (1 + (countCreates et ops : Int))
         else none) := by
  have hinit : storeInv initState := by
    intro et
    exact trivial
  refine ⟨storeInv_run hinit ops, ?_⟩
  intro et
  have h := counters_run ops initState hinit et
  simpa using h

/-- Modelled from the spec: the SchemaNode tagged union of section 3 (the
repository has no SchemaResolver or ValueSynthesizer implementation;
utils.py delegates reference handling to the external jsonschema library
and value generation to external AI backends). -/
inductive SchemaNode where
  | str (fmt : Option String) (enum : Option (List String))
  | int (min max : Option Int)
  | num (min max : Option Int)
  | bool
  | arr (item : SchemaNode) (minItems maxItems : Option Nat)
  | obj (props : List (String × SchemaNode)) (required : List String)
  | ref (path : String)
  | unconstrained

/-- A schema document: named definitions a reference can point to. -/
abbrev Doc := List (String × SchemaNode)

/-- Modelled from the spec: the SchemaResolver failure modes of section
4.1. -/
inductive RErr where
  | cyclicReference
  | unresolvedReference (path : String)
deriving DecidableEq, Repr

mutual
/-- The reference paths occurring anywhere in a node. -/
def refsOf : SchemaNode → List String
  | .ref p => [p]
  | .arr item _ _ => refsOf item
  | .obj props _ => refsOfProps props
  | _ => []

def refsOfProps : List (String × SchemaNode) → List String
  | [] => []
  | (_, n) :: rest => refsOf n ++ refsOfProps rest
end

/-- Membership test used for the resolution stack. -/
def inList (p : String) (l : List String) : Bool :=
  l.any (fun q => q == p)

/-- Count of document keys not yet on the resolution stack — the
termination measure of resolve. -/
def freeKeys (doc : Doc) (stack : List String) : Nat :=
  ((doc.map Prod.fst).filter (fun p => !(inList p stack))).length

theorem filter_length_mono {α : Type} {q1 q2 : α → Bool} (l : List α)
    (himp : ∀ x, q2 x = true → q1 x = true) :
    (l.filter q2).length ≤ (l.filter q1).length := by
  induction l with
  | nil => exact le_refl 0
  | cons x xs ih =>
    by_cases h2 : q2 x = true
    · rw [List.filter_cons_of_pos h2, List.filter_cons_of_pos (himp x h2)]
      simpa using ih
    · rw [List.filter_cons_of_neg h2]
      by_cases h1 : q1 x = true
      · rw [List.filter_cons_of_pos h1]
        exact le_trans ih (by simp)
      · rw [List.filter_cons_of_neg h1]
        exact ih

theorem filter_length_strict {α : Type} {q1 q2 : α → Bool} {l : List α}
    {p : α} (hp : p ∈ l) (himp : ∀ x, q2 x = true → q1 x = true)
    (hq1 : q1 p = true) (hq2 : q2 p = false) :
    (l.filter q2).length < (l.filter q1).length := by
  induction l with
  | nil => cases hp
  | cons x xs ih =>
    rcases List.mem_cons.mp hp with he | he
    · subst he
      rw [List.filter_cons_of_neg (by simp [hq2]), List.filter_cons_of_pos hq1]
      exact Nat.lt_succ_of_le (filter_length_mono xs himp)
    · by_cases h2 : q2 x = true
      · rw [List.filter_cons_of_pos h2, List.filter_cons_of_pos (himp x h2)]
        simpa using ih he
      · rw [List.filter_cons_of_neg h2]
        by_cases h1 : q1 x = true
        · rw [List.filter_cons_of_pos h1]
          exact Nat.lt_succ_of_le (le_of_lt (ih he))
        · rw [List.filter_cons_of_neg h1]
          exact ih he

theorem freeKeys_push {doc : Doc} {stack : List String} {p : String}
    {n : SchemaNode} (hl : lookupA p doc = some n)
    (hin : inList p stack = false) :
    freeKeys doc (p :: stack) < freeKeys doc stack := by
  unfold freeKeys
  refine filter_length_strict
    (List.mem_map.mpr ⟨(p, n), mem_of_lookupA hl, rfl⟩) ?_ ?_ ?_
  · intro x hx
    simp only [Bool.not_eq_true'] at hx ⊢
    apply Bool.eq_false_iff.mpr
    intro hc
    obtain ⟨q, hq, hbq⟩ := List.any_eq_true.mp hc
    have : inList x (p :: stack) = true :=
      List.any_eq_true.mpr ⟨q, List.mem_cons_of_mem _ hq, hbq⟩
    rw [this] at hx
    cases hx
  · show (!(inList p stack)) = true
    rw [hin]
    rfl
  · show (!(inList p (p :: stack))) = false
    have hmem2 : inList p (p :: stack) = true :=
      List.any_eq_true.mpr ⟨p, List.mem_cons_self _ _, beq_self_eq_true p⟩
    rw [hmem2]
    rfl

mutual
/-- Modelled from the spec (section 4.1): resolve walks the node, replacing
each reference by its fully resolved definition from the document root,
keeping the set of references on the active call stack; a reference already
on the stack fails with CyclicReference, a missing one with
UnresolvedReference. -/
def resolve (doc : Doc) (stack : List String) (node : SchemaNode) :
    Except RErr SchemaNode :=
  match node with
  | .ref p =>
      if hin : inList p stack = true then .error .cyclicReference
      else
        match hl : lookupA p doc with
        | none => .error (.unresolvedReference p)
        | some n => resolve doc (p :: stack) n
  | .arr item lo hi =>
      match resolve doc stack item with
      | .error e => .error e
      | .ok item2 => .ok (.arr item2 lo hi)
  | .obj props req =>
      match resolveProps doc stack props with
      | .error e => .error e
      | .ok props2 => .ok (.obj props2 req)
  | n => .ok n
termination_by (freeKeys doc stack, sizeOf node)
decreasing_by
  · apply Prod.Lex.left
    exact freeKeys_push hl (Bool.not_eq_true _ ▸ eq_false_of_ne_true hin)
  · apply Prod.Lex.right
    simp_arith
  · apply Prod.Lex.right
    simp_arith

/-- Resolution of an object's property list, in order. -/
def resolveProps (doc : Doc) (stack : List String)
    (l : List (String × SchemaNode)) :
    Except RErr (List (String × SchemaNode)) :=
  match l with
  | [] => .ok []
  | (k, n) :: rest =>
      match resolve doc stack n with
      | .error e => .error e
      | .ok n2 =>
          match resolveProps doc stack rest with
          | .error e => .error e
          | .ok rest2 => .ok ((k, n2) :: rest2)
termination_by (freeKeys doc stack, sizeOf l)
decreasing_by
  · apply Prod.Lex.right
    simp_arith
  · apply Prod.Lex.right
    simp_arith
end

theorem resolve_ref_cyclic {doc : Doc} {stack : List String} {p : String}
    (hin : inList p stack = true) :
    resolve doc stack (.ref p) = .error .cyclicReference := by
  simp [resolve, hin]

theorem resolve_ref_unresolved {doc : Doc} {stack : List String} {p : String}
    (hin : inList p stack = false) (hl : lookupA p doc = none) :
    resolve doc stack (.ref p) = .error (.unresolvedReference p) := by
  simp only [resolve, hin]
  split
  · next heq => cases heq
  · split
    · rfl
    · next m heq =>
        rw [hl] at heq
        cases heq

theorem resolve_ref_ok {doc : Doc} {stack : List String} {p : String}
    {n : SchemaNode} (hin : inList p stack = false)
    (hl : lookupA p doc = some n) :
    resolve doc stack (.ref p) = resolve doc (p :: stack) n := by
  simp only [resolve, hin]
  split
  · next heq => cases heq
  · split
    · next heq =>
        rw [hl] at heq
        cases heq
    · next m heq =>
        rw [hl] at heq
        injection heq with h2
        subst h2
        rfl

theorem resolve_arr_ok {doc : Doc} {stack : List String} {item t : SchemaNode}
    {lo hi : Option Nat} (h : resolve doc stack item = .ok t) :
    resolve doc stack (.arr item lo hi) = .ok (.arr t lo hi) := by
  simp [resolve, h]

theorem resolve_arr_err {doc : Doc} {stack : List String} {item : SchemaNode}
    {lo hi : Option Nat} {e : RErr} (h : resolve doc stack item = .error e) :
    resolve doc stack (.arr item lo hi) = .error e := by
  simp [resolve, h]

theorem resolve_obj_ok {doc : Doc} {stack : List String}
    {props l2 : List (String × SchemaNode)} {req : List String}
    (h : resolveProps doc stack props = .ok l2) :
    resolve doc stack (.obj props req) = .ok (.obj l2 req) := by
  simp [resolve, h]

theorem resolve_obj_err {doc : Doc} {stack : List String}
    {props : List (String × SchemaNode)} {req : List String} {e : RErr}
    (h : resolveProps doc stack props = .error e) :
    resolve doc stack (.obj props req) = .error e := by
  simp [resolve, h]

theorem resolveProps_nil {doc : Doc} {stack : List String} :
    resolveProps doc stack [] = .ok [] := by
  simp [resolveProps]

theorem resolveProps_cons_err1 {doc : Doc} {stack : List String} {k : String}
    {n : SchemaNode} {rest : List (String × SchemaNode)} {e : RErr}
    (h : resolve doc stack n = .error e) :
    resolveProps doc stack ((k, n) :: rest) = .error e := by
  simp [resolveProps, h]

theorem resolveProps_cons_err2 {doc : Doc} {stack : List String} {k : String}
    {n n2 : SchemaNode} {rest : List (String × SchemaNode)} {e : RErr}
    (h1 : resolve doc stack n = .ok n2)
    (h2 : resolveProps doc stack rest = .error e) :
    resolveProps doc stack ((k, n) :: rest) = .error e := by
  simp [resolveProps, h1, h2]

theorem resolveProps_cons_ok {doc : Doc} {stack : List String} {k : String}
    {n n2 : SchemaNode} {rest rest2 : List (String × SchemaNode)}
    (h1 : resolve doc stack n = .ok n2)
    (h2 : resolveProps doc stack rest = .ok rest2) :
    resolveProps doc stack ((k, n) :: rest) = .ok ((k, n2) :: rest2) := by
  simp [resolveProps, h1, h2]

theorem resolve_base {doc : Doc} {stack : List String} {node : SchemaNode}
    (h1 : ∀ p, node = SchemaNode.ref p → False)
    (h2 : ∀ item lo hi, node = SchemaNode.arr item lo hi → False)
    (h3 : ∀ props req, node = SchemaNode.obj props req → False) :
    resolve doc stack node = .ok node ∧ refsOf node = [] := by
  cases node with
  | ref p => exact absurd rfl (h1 p)
  | arr item lo hi => exact absurd rfl (h2 item lo hi)
  | obj props req => exact absurd rfl (h3 props req)
  | str fmt enum => exact ⟨by simp [resolve], by simp [refsOf]⟩
  | int a b => exact ⟨by simp [resolve], by simp [refsOf]⟩
  | num a b => exact ⟨by simp [resolve], by simp [refsOf]⟩
  | bool => exact ⟨by simp [resolve], by simp [refsOf]⟩
  | unconstrained => exact ⟨by simp [resolve], by simp [refsOf]⟩

/-- Every reference inside every document definition points at an existing
definition. -/
def refsClosed (doc : Doc) : Bool :=
  doc.all (fun kv => (refsOf kv.2).all (fun q => (lookupA q doc).isSome))

/-- Every reference of the node points at an existing definition. -/
def nodeClosed (doc : Doc) (node : SchemaNode) : Bool :=
  (refsOf node).all (fun q => (lookupA q doc).isSome)

/-- A rank function witnessing acyclicity: every reference inside a
definition has strictly smaller rank than the definition's name. -/
def rankOk (doc : Doc) (rank : String → Nat) : Bool :=
  doc.all (fun kv => (refsOf kv.2).all (fun q => decide (rank q < rank kv.1)))

theorem resolve_refFree (doc : Doc) :
    (∀ stack node, ∀ t, resolve doc stack node = .ok t → refsOf t = [])
    ∧ (∀ stack l, ∀ l2, resolveProps doc stack l = .ok l2 →
        refsOfProps l2 = []) := by
  refine resolve.mutual_induct doc
    (fun stack node => ∀ t, resolve doc stack node = .ok t → refsOf t = [])
    (fun stack l => ∀ l2, resolveProps doc stack l = .ok l2 →
        refsOfProps l2 = [])
    ?_ ?_ ?_ ?_ ?_ ?_ ?_ ?_ ?_ ?_ ?_ ?_
  · intro stack p hin t ht
    rw [resolve_ref_cyclic hin] at ht
    cases ht
  · intro stack p hin hl t ht
    rw [resolve_ref_unresolved (Bool.eq_false_iff.mpr hin) hl] at ht
    cases ht
  · intro stack p hin n hl ih t ht
    rw [resolve_ref_ok (Bool.eq_false_iff.mpr hin) hl] at ht
    exact ih t ht
  · intro stack item lo hi e herr ih t ht
    rw [resolve_arr_err herr] at ht
    cases ht
  · intro stack item lo hi item2 hok ih t ht
    rw [resolve_arr_ok hok] at ht
    injection ht with h2
    subst h2
    show refsOf item2 = []
    exact ih item2 hok
  · intro stack props req e herr ih t ht
    rw [resolve_obj_err herr] at ht
    cases ht
  · intro stack props req props2 hok ih t ht
    rw [resolve_obj_ok hok] at ht
    injection ht with h2
    subst h2
    show refsOfProps props2 = []
    exact ih props2 hok
  · intro stack node h1 h2 h3 t ht
    obtain ⟨heq, hrefs⟩ := @resolve_base doc stack _ h1 h2 h3
    rw [heq] at ht
    injection ht with h4
    subst h4
    exact hrefs
  · intro stack l2 h
    rw [resolveProps_nil] at h
    injection h with h2
    subst h2
    rfl
  · intro stack k n rest e herr ih l2 h
    rw [resolveProps_cons_err1 herr] at h
    cases h
  · intro stack k n rest n2 hok e herr ih1 ih2 l2 h
    rw [resolveProps_cons_err2 hok herr] at h
    cases h
  · intro stack k n rest n2 hok props2 hok2 ih1 ih2 l2 h
    rw [resolveProps_cons_ok hok hok2] at h
    injection h with h2
    subst h2
    show refsOf n2 ++ refsOfProps props2 = []
    rw [ih1 n2 hok, ih2 props2 hok2]
    rfl

theorem refsOf_ref (p : String) : refsOf (.ref p) = [p] := by simp [refsOf]

theorem refsOf_arr (item : SchemaNode) (lo hi : Option Nat) :
    refsOf (.arr item lo hi) = refsOf item := by simp [refsOf]

theorem refsOf_obj (props : List (String × SchemaNode)) (req : List String) :
    refsOf (.obj props req) = refsOfProps props := by simp [refsOf]

theorem refsOfProps_cons (k : String) (n : SchemaNode)
    (rest : List (String × SchemaNode)) :
    refsOfProps ((k, n) :: rest) = refsOf n ++ refsOfProps rest := by
  simp [refsOfProps]

/-- The closedness predicate written for property lists. -/
def propsClosed (doc : Doc) (l : List (String × SchemaNode)) : Bool :=
  (refsOfProps l).all (fun q => (lookupA q doc).isSome)

theorem resolve_no_unresolved (doc : Doc) (hdoc : refsClosed doc = true) :
    (∀ stack node, nodeClosed doc node = true →
      ∀ p, resolve doc stack node ≠ .error (.unresolvedReference p))
    ∧ (∀ stack l, propsClosed doc l = true →
      ∀ p, resolveProps doc stack l ≠ .error (.unresolvedReference p)) := by
  refine resolve.mutual_induct doc
    (fun stack node => nodeClosed doc node = true →
      ∀ p, resolve doc stack node ≠ .error (.unresolvedReference p))
    (fun stack l => propsClosed doc l = true →
      ∀ p, resolveProps doc stack l ≠ .error (.unresolvedReference p))
    ?_ ?_ ?_ ?_ ?_ ?_ ?_ ?_ ?_ ?_ ?_ ?_
  · intro stack p hin hclosed p' hcontra
    rw [resolve_ref_cyclic hin] at hcontra
    injection hcontra with h
    cases h
  · intro stack p hin hl hclosed p' hcontra
    unfold nodeClosed at hclosed
    rw [refsOf_ref] at hclosed
    simp [hl] at hclosed
  · intro stack p hin n hl ih hclosed p' hcontra
    have hcn : nodeClosed doc n = true :=
      List.all_eq_true.mp hdoc (p, n) (mem_of_lookupA hl)
    rw [resolve_ref_ok (Bool.eq_false_iff.mpr hin) hl] at hcontra
    exact ih hcn p' hcontra
  · intro stack item lo hi e herr ih hclosed p' hcontra
    have hci : nodeClosed doc item = true := by
      unfold nodeClosed at hclosed ⊢
      rw [refsOf_arr] at hclosed
      exact hclosed
    rw [resolve_arr_err herr] at hcontra
    injection hcontra with h2
    subst h2
    exact ih hci p' herr
  · intro stack item lo hi item2 hok ih hclosed p' hcontra
    rw [resolve_arr_ok hok] at hcontra
    cases hcontra
  · intro stack props req e herr ih hclosed p' hcontra
    have hcp : propsClosed doc props = true := by
      unfold nodeClosed at hclosed
      unfold propsClosed
      rw [refsOf_obj] at hclosed
      exact hclosed
    rw [resolve_obj_err herr] at hcontra
    injection hcontra with h2
    subst h2
    exact ih hcp p' herr
  · intro stack props req props2 hok ih hclosed p' hcontra
    rw [resolve_obj_ok hok] at hcontra
    cases hcontra
  · intro stack node h1 h2 h3 hclosed p' hcontra
    rw [(@resolve_base doc stack _ h1 h2 h3).1] at hcontra
    cases hcontra
  · intro stack hclosed p' hcontra
    rw [resolveProps_nil] at hcontra
    cases hcontra
  · intro stack k n rest e herr ih hclosed p' hcontra
    have hsplit : nodeClosed doc n = true ∧ propsClosed doc rest = true := by
      unfold propsClosed at hclosed
      rw [refsOfProps_cons, List.all_append, Bool.and_eq_true] at hclosed
      exact hclosed
    rw [resolveProps_cons_err1 herr] at hcontra
    injection hcontra with h2
    subst h2
    exact ih hsplit.1 p' herr
  · intro stack k n rest n2 hok e herr ih1 ih2 hclosed p' hcontra
    have hsplit : nodeClosed doc n = true ∧ propsClosed doc rest = true := by
      unfold propsClosed at hclosed
      rw [refsOfProps_cons, List.all_append, Bool.and_eq_true] at hclosed
      exact hclosed
    rw [resolveProps_cons_err2 hok herr] at hcontra
    injection hcontra with h2
    subst h2
    exact ih2 hsplit.2 p' herr
  · intro stack k n rest n2 hok props2 hok2 ih1 ih2 hclosed p' hcontra
    rw [resolveProps_cons_ok hok hok2] at hcontra
    cases hcontra

theorem resolve_ok_refs (doc : Doc) :
    (∀ stack node, ∀ t, resolve doc stack node = .ok t →
      ∀ q, q ∈ refsOf node → inList q stack = false ∧
        ∃ n, lookupA q doc = some n ∧ ∃ t', resolve doc (q :: stack) n = .ok t')
    ∧ (∀ stack l, ∀ l2, resolveProps doc stack l = .ok l2 →
      ∀ q, q ∈ refsOfProps l → inList q stack = false ∧
        ∃ n, lookupA q doc = some n ∧
          ∃ t', resolve doc (q :: stack) n = .ok t') := by
  refine resolve.mutual_induct doc
    (fun stack node => ∀ t, resolve doc stack node = .ok t →
      ∀ q, q ∈ refsOf node → inList q stack = false ∧
        ∃ n, lookupA q doc = some n ∧ ∃ t', resolve doc (q :: stack) n = .ok t')
    (fun stack l => ∀ l2, resolveProps doc stack l = .ok l2 →
      ∀ q, q ∈ refsOfProps l → inList q stack = false ∧
        ∃ n, lookupA q doc = some n ∧ ∃ t', resolve doc (q :: stack) n = .ok t')
    ?_ ?_ ?_ ?_ ?_ ?_ ?_ ?_ ?_ ?_ ?_ ?_
  · intro stack p hin t ht
    rw [resolve_ref_cyclic hin] at ht
    cases ht
  · intro stack p hin hl t ht
    rw [resolve_ref_unresolved (Bool.eq_false_iff.mpr hin) hl] at ht
    cases ht
  · intro stack p hin n hl ih t ht q hq
    rw [refsOf_ref, List.mem_singleton] at hq
    subst hq
    rw [resolve_ref_ok (Bool.eq_false_iff.mpr hin) hl] at ht
    exact ⟨Bool.eq_false_iff.mpr hin, n, hl, t, ht⟩
  · intro stack item lo hi e herr ih t ht
    rw [resolve_arr_err herr] at ht
    cases ht
  · intro stack item lo hi item2 hok ih t ht q hq
    rw [refsOf_arr] at hq
    exact ih item2 hok q hq
  · intro stack props req e herr ih t ht
    rw [resolve_obj_err herr] at ht
    cases ht
  · intro stack props req props2 hok ih t ht q hq
    rw [refsOf_obj] at hq
    exact ih props2 hok q hq
  · intro stack node h1 h2 h3 t ht q hq
    rw [(@resolve_base doc stack _ h1 h2 h3).2] at hq
    cases hq
  · intro stack l2 h q hq
    simp only [refsOfProps] at hq
    cases hq
  · intro stack k n rest e herr ih l2 h
    rw [resolveProps_cons_err1 herr] at h
    cases h
  · intro stack k n rest n2 hok e herr ih1 ih2 l2 h
    rw [resolveProps_cons_err2 hok herr] at h
    cases h
  · intro stack k n rest n2 hok props2 hok2 ih1 ih2 l2 h q hq
    rw [refsOfProps_cons] at hq
    rcases List.mem_append.mp hq with h2 | h2
    · exact ih1 n2 hok q h2
    · exact ih2 props2 hok2 q h2

/-- A chain of references through the document: each name's definition
mentions the next name. The list records the visited names in order. -/
inductive RefChain (doc : Doc) : String → List String → Prop where
  | single (q : String) : RefChain doc q [q]
  | cons (q q' : String) (l : List String) (n : SchemaNode)
      (hl : lookupA q doc = some n) (hq' : q' ∈ refsOf n)
      (hrest : RefChain doc q' (q' :: l)) : RefChain doc q (q :: q' :: l)

theorem inList_cons (s a : String) (l : List String) :
    inList s (a :: l) = ((a == s) || inList s l) := rfl

theorem chain_nodup_of_ok {doc : Doc} :
    ∀ {q : String} {l : List String}, RefChain doc q l →
    ∀ {stack : List String} {node t : SchemaNode},
      resolve doc stack node = .ok t → q ∈ refsOf node →
      (∀ s ∈ l, inList s stack = false) ∧ l.Nodup := by
  intro q l hchain
  induction hchain with
  | single q =>
    intro stack node t ht hq
    obtain ⟨hnotin, _⟩ := (resolve_ok_refs doc).1 stack node t ht q hq
    refine ⟨?_, List.nodup_singleton q⟩
    intro s hs
    rw [List.mem_singleton.mp hs]
    exact hnotin
  | cons q q' l n hl hq' hrest ih =>
    intro stack node t ht hq
    obtain ⟨hnotin, n2, hl2, t2, ht2⟩ := (resolve_ok_refs doc).1 stack node t ht q hq
    rw [hl] at hl2
    injection hl2 with h2
    subst h2
    obtain ⟨hstack, hnodup⟩ := ih ht2 hq'
    have hdown : ∀ s ∈ q' :: l, (q == s) = false ∧ inList s stack = false := by
      intro s hs
      have := hstack s hs
      rw [inList_cons] at this
      exact Bool.or_eq_false_iff.mp this
    constructor
    · intro s hs
      rcases List.mem_cons.mp hs with he | he
      · subst he; exact hnotin
      · exact (hdown s he).2
    · apply List.nodup_cons.mpr
      refine ⟨?_, hnodup⟩
      intro hmem
      have := (hdown q hmem).1
      rw [beq_self_eq_true] at this
      cases this

theorem resolve_rank_no_cyclic (doc : Doc) (rank : String → Nat)
    (hrank : rankOk doc rank = true) :
    (∀ stack node, (∀ s ∈ stack, ∀ q ∈ refsOf node, rank q < rank s) →
      resolve doc stack node ≠ .error .cyclicReference)
    ∧ (∀ stack l, (∀ s ∈ stack, ∀ q ∈ refsOfProps l, rank q < rank s) →
      resolveProps doc stack l ≠ .error .cyclicReference) := by
  refine resolve.mutual_induct doc
    (fun stack node => (∀ s ∈ stack, ∀ q ∈ refsOf node, rank q < rank s) →
      resolve doc stack node ≠ .error .cyclicReference)
    (fun stack l => (∀ s ∈ stack, ∀ q ∈ refsOfProps l, rank q < rank s) →
      resolveProps doc stack l ≠ .error .cyclicReference)
    ?_ ?_ ?_ ?_ ?_ ?_ ?_ ?_ ?_ ?_ ?_ ?_
  · intro stack p hin hinv hcontra
    obtain ⟨s, hs, hbs⟩ := List.any_eq_true.mp hin
    have hsp : s = p := eq_of_beq hbs
    rw [hsp] at hs
    have := hinv p hs p (by rw [refsOf_ref]; exact List.mem_singleton.mpr rfl)
    omega
  · intro stack p hin hl hinv hcontra
    rw [resolve_ref_unresolved (Bool.eq_false_iff.mpr hin) hl] at hcontra
    injection hcontra with h2
    cases h2
  · intro stack p hin n hl ih hinv hcontra
    rw [resolve_ref_ok (Bool.eq_false_iff.mpr hin) hl] at hcontra
    apply ih ?_ hcontra
    intro s hs q hq
    have hqp : rank q < rank p := by
      have h2 := List.all_eq_true.mp hrank (p, n) (mem_of_lookupA hl)
      have h3 := List.all_eq_true.mp h2 q hq
      exact of_decide_eq_true h3
    rcases List.mem_cons.mp hs with he | he
    · subst he; exact hqp
    · have hps : rank p < rank s :=
        hinv s he p (by rw [refsOf_ref]; exact List.mem_singleton.mpr rfl)
      omega
  · intro stack item lo hi e herr ih hinv hcontra
    rw [resolve_arr_err herr] at hcontra
    injection hcontra with h2
    subst h2
    apply ih ?_ herr
    intro s hs q hq
    exact hinv s hs q (by rw [refsOf_arr]; exact hq)
  · intro stack item lo hi item2 hok ih hinv hcontra
    rw [resolve_arr_ok hok] at hcontra
    cases hcontra
  · intro stack props req e herr ih hinv hcontra
    rw [resolve_obj_err herr] at hcontra
    injection hcontra with h2
    subst h2
    apply ih ?_ herr
    intro s hs q hq
    exact hinv s hs q (by rw [refsOf_obj]; exact hq)
  · intro stack props req props2 hok ih hinv hcontra
    rw [resolve_obj_ok hok] at hcontra
    cases hcontra
  · intro stack node h1 h2 h3 hinv hcontra
    rw [(@resolve_base doc stack _ h1 h2 h3).1] at hcontra
    cases hcontra
  · intro stack hinv hcontra
    rw [resolveProps_nil] at hcontra
    cases hcontra
  · intro stack k n rest e herr ih hinv hcontra
    rw [resolveProps_cons_err1 herr] at hcontra
    injection hcontra with h2
    subst h2
    apply ih ?_ herr
    intro s hs q hq
    exact hinv s hs q
      (by rw [refsOfProps_cons]; exact List.mem_append_left _ hq)
  · intro stack k n rest n2 hok e herr ih1 ih2 hinv hcontra
    rw [resolveProps_cons_err2 hok herr] at hcontra
    injection hcontra with h2
    subst h2
    apply ih2 ?_ herr
    intro s hs q hq
    exact hinv s hs q
      (by rw [refsOfProps_cons]; exact List.mem_append_right _ hq)
  · intro stack k n rest n2 hok props2 hok2 ih1 ih2 hinv hcontra
    rw [resolveProps_cons_ok hok hok2] at hcontra
    cases hcontra

/-- C5: resolve is total by construction (well-founded on the count of
document keys not yet on the stack, then node size). For a document with
no reference cycle — witnessed by a rank function decreasing across every
reference edge — and all references resolvable, resolving any closed node
succeeds with a tree containing zero reference nodes; and whenever the
resolved node reaches a self-referential reference chain, resolve returns
the CyclicReference error rather than recursing forever. -/
theorem C5_resolve_terminates (doc : Doc) (node : SchemaNode) :
    (∀ rank : String → Nat, refsClosed doc = true → nodeClosed doc node = true →
      rankOk doc rank = true →
      ∃ t, resolve doc [] node = .ok t ∧ refsOf t = [])
    ∧ (∀ c l, refsClosed doc = true → nodeClosed doc node = true →
      c ∈ refsOf node → RefChain doc c (c :: l) → l.getLast? = some c →
      resolve doc [] node = .error .cyclicReference) := by
  constructor
  · intro rank hclosed hnode hrank
    cases hres : resolve doc [] node with
    | ok t => exact ⟨t, rfl, (resolve_refFree doc).1 [] node t hres⟩
    | error e =>
      cases e with
      | cyclicReference =>
        exact absurd hres ((resolve_rank_no_cyclic doc rank hrank).1 [] node
          (fun s hs => absurd hs (List.not_mem_nil s)))
      | unresolvedReference p =>
        exact absurd hres ((resolve_no_unresolved doc hclosed).1 [] node hnode p)
  · intro c l hclosed hnode hc hchain hlast
    cases hres : resolve doc [] node with
    | ok t =>
      obtain ⟨_, hnodup⟩ := chain_nodup_of_ok hchain hres hc
      have hcl : c ∈ l := List.mem_of_getLast?_eq_some hlast
      rw [List.nodup_cons] at hnodup
      exact absurd hcl hnodup.1
    | error e =>
      cases e with
      | cyclicReference => rfl
      | unresolvedReference p =>
        exact absurd hres ((resolve_no_unresolved doc hclosed).1 [] node hnode p)

/-- C5 witness: the acyclic document A -> B -> bool resolves ref A into a
reference-free tree; the cyclic document A -> B -> A makes resolving ref A
fail with CyclicReference. -/
theorem C5_witness :
    (∃ t, resolve [("A", SchemaNode.ref "B"), ("B", SchemaNode.bool)] []
      (SchemaNode.ref "A") = .ok t ∧ refsOf t = [])
    ∧ resolve [("A", SchemaNode.ref "B"), ("B", SchemaNode.ref "A")] []
      (SchemaNode.ref "A") = .error .cyclicReference := by
  constructor
  · exact (C5_resolve_terminates
      [("A", SchemaNode.ref "B"), ("B", SchemaNode.bool)]
      (SchemaNode.ref "A")).1
      (fun s => if s = "A" then 2 else if s = "B" then 1 else 0)
      (by simp [refsClosed, refsOf, refsOfProps, lookupA])
      (by simp [nodeClosed, refsOf, lookupA])
      (by simp [rankOk, refsOf, refsOfProps])
  · exact (C5_resolve_terminates
      [("A", SchemaNode.ref "B"), ("B", SchemaNode.ref "A")]
      (SchemaNode.ref "A")).2 "A" ["B", "A"]
      (by simp [refsClosed, refsOf, refsOfProps, lookupA])
      (by simp [nodeClosed, refsOf, lookupA])
      (by rw [refsOf_ref]; exact List.mem_singleton.mpr rfl)
      (RefChain.cons "A" "B" ["A"] (SchemaNode.ref "B") rfl
        (by rw [refsOf_ref]; exact List.mem_singleton.mpr rfl)
        (RefChain.cons "B" "A" [] (SchemaNode.ref "A") rfl
          (by rw [refsOf_ref]; exact List.mem_singleton.mpr rfl)
          (RefChain.single "A")))
      rfl

/-- A fixed linear congruential step: the seeded random source the spec
requires for reproducible synthesis. -/
def nextRand (s : Nat) : Nat := (s * 1103515245 + 12345) % 2147483648

/-- The timestamp synthesized for date-time formatted strings. -/
def dtConst : String := "2024-06-15T10:30:00"

mutual
/-- Modelled from the spec (section 4.2): synthesize produces a value
conforming to a resolved schema node — enum values are drawn from the enum,
formats get plausible values, numerics draw from their window (defaulting
to 0-100), arrays draw a count (defaulting to 1-3), objects always include
required properties and include optional ones with 70 percent probability.
A pure function of the node and the seed; reference nodes never occur in
resolved input (they yield null). -/
def synthesize : SchemaNode → Nat → PyVal × Nat
  | .str fmt enum, s =>
      let s1 := nextRand s
      (match enum with
       | some es =>
           if h : es.length = 0 then (.str "", s1)
           else (.str (es.get ⟨s1 % es.length, Nat.mod_lt _ (Nat.pos_of_ne_zero h)⟩), s1)
       | none =>
           if fmt == some "date-time" then (.str dtConst, s1)
           else if fmt == some "email" then
             (.str ("user" ++ toString (s1 % 1000) ++ "@example.com"), s1)
           else if fmt == some "uuid" then
             (.str ("id-" ++ toString (s1 % 100000)), s1)
           else (.str ("tok" ++ toString (s1 % 100000)), s1))
  | .int lo hi, s =>
      let s1 := nextRand s
      let a := lo.getD 0
      let b := hi.getD 100
      (.int (if a ≤ b then a + (s1 : Int) % (b - a + 1) else a), s1)
  | .num lo hi, s =>
      let s1 := nextRand s
      let a := lo.getD 0
      let b := hi.getD 100
      let base : Int := if a ≤ b then a + (s1 : Int) % (b - a + 1) else a
      (.num ((base : ℚ) + ((nextRand s1 % 100 : Nat) : ℚ) / 100), s1)
  | .bool, s =>
      let s1 := nextRand s
      (.bool (s1 % 2 == 0), s1)
  | .arr item lo hi, s =>
      let s1 := nextRand s
      let a := lo.getD 1
      let b := hi.getD 3
      let n := if a ≤ b then a + s1 % (b - a + 1) else a
      let r := synthList n item s1
      (.arr r.1, r.2)
  | .obj props required, s =>
      let r := synthProps props required s
      (.obj r.1, r.2)
  | .ref _, s => (.null, s)
  | .unconstrained, s =>
      let s1 := nextRand s
      (.str ("tok" ++ toString (s1 % 100000)), s1)
termination_by node _ => (sizeOf node, 0)
decreasing_by
  · apply Prod.Lex.left
    cases lo <;> cases hi <;> simp_arith
  · apply Prod.Lex.left
    simp_arith

/-- Synthesis of a fixed number of array items, threading the seed. -/
def synthList : Nat → SchemaNode → Nat → List PyVal × Nat
  | 0, _, s => ([], s)
  | n + 1, item, s =>
      let r1 := synthesize item s
      let r2 := synthList n item r1.2
      (r1.1 :: r2.1, r2.2)
termination_by n item _ => (sizeOf item + 1, n)
decreasing_by
  · apply Prod.Lex.left
    simp_arith
  · apply Prod.Lex.right
    simp_arith

/-- Synthesis of an object's properties: required ones always, optional
ones with 70 percent probability, threading the seed. -/
def synthProps : List (String × SchemaNode) → List String → Nat →
    List (String × PyVal) × Nat
  | [], _, s => ([], s)
  | (k, child) :: rest, required, s =>
      let s1 := nextRand s
      if inList k required || decide (s1 % 100 < 70) then
        let r1 := synthesize child s1
        let r2 := synthProps rest required r1.2
        ((k, r1.1) :: r2.1, r2.2)
      else
        synthProps rest required s1
termination_by l _ _ => (sizeOf l, 0)
decreasing_by
  · apply Prod.Lex.left
    simp_arith
  · apply Prod.Lex.left
    simp_arith
  · apply Prod.Lex.left
    simp_arith
end

/-- The FieldSchema the source validator reads for one property node: the
declared type name, the enum of a string node (as runtime values), and the
format tag of a string node. -/
def toFieldSchema : SchemaNode → FieldSchema
  | .str fmt enum => ⟨some "string", enum.map (fun es => es.map PyVal.str), fmt⟩
  | .int _ _ => ⟨some "integer", none, none⟩
  | .num _ _ => ⟨some "number", none, none⟩
  | .bool => ⟨some "boolean", none, none⟩
  | .arr _ _ _ => ⟨some "array", none, none⟩
  | .obj _ _ => ⟨some "object", none, none⟩
  | .ref _ => ⟨none, none, none⟩
  | .unconstrained => ⟨none, none, none⟩

/-- The validator's view of an object schema node. -/
def toValidatorSchema (props : List (String × SchemaNode))
    (required : List String) : ObjSchema :=
  ⟨required, props.map (fun kv => (kv.1, toFieldSchema kv.2))⟩

/-- A string acceptable to the modelled date-time probe. -/
def isoOkStr (e : String) : Bool := isoAccepts (pyReplaceZ e)

/-- Per-property sanity of a resolved node: no reference nodes (the input
is the output of resolve), enums nonempty (random.choice of an empty enum
is undefined), and a date-time formatted enum only listing parseable
timestamps. -/
def nodeOk : SchemaNode → Bool
  | .ref _ => false
  | .str fmt enum =>
      (match enum with
       | none => true
       | some es => !es.isEmpty && (fmt != some "date-time" || es.all isoOkStr))
  | _ => true

/-- Well-formedness of an object schema per the spec's data model
(section 3): required is a subset of the property names, properties form a
mapping (unique keys), and every property node is sane. -/
def objWF (props : List (String × SchemaNode)) (required : List String) : Bool :=
  required.all (fun f => props.any (fun kv => kv.1 == f)) &&
  noDupKeys props &&
  props.all (fun kv => nodeOk kv.2)

theorem lookupA_map_snd {α β : Type} (g : α → β) (f : String)
    (props : List (String × α)) :
    lookupA f (props.map (fun kv => (kv.1, g kv.2))) =
      (lookupA f props).map g := by
  induction props with
  | nil => rfl
  | cons kv rest ih =>
    obtain ⟨k, v⟩ := kv
    by_cases hk : k == f
    · simp [lookupA, hk]
    · simp only [List.map_cons, lookupA, hk, Bool.false_eq_true, if_false]
      exact ih

theorem synthProps_lookup_required :
    ∀ (props : List (String × SchemaNode)) (required : List String)
      (s : Nat) (f : String), f ∈ required →
      props.any (fun kv => kv.1 == f) = true →
      (lookupA f (synthProps props required s).1).isSome = true := by
  intro props
  induction props with
  | nil =>
    intro required s f hf hany
    cases List.any_eq_true.mp hany with
    | intro kv h => exact absurd h.1 (List.not_mem_nil kv)
  | cons kv rest ih =>
    intro required s f hf hany
    obtain ⟨k, child⟩ := kv
    by_cases hk : (k == f) = true
    · have hkf : k = f := eq_of_beq hk
      have hinl : inList k required = true :=
        List.any_eq_true.mpr ⟨f, hf, by rw [hkf]; exact beq_self_eq_true f⟩
      show (lookupA f (synthProps ((k, child) :: rest) required s).1).isSome = true
      simp only [synthProps, hinl, Bool.true_or, if_true]
      simp [lookupA, hk]
    · have hany2 : rest.any (fun kv => kv.1 == f) = true := by
        rcases List.any_eq_true.mp hany with ⟨kv2, hkv2, hbeq⟩
        rcases List.mem_cons.mp hkv2 with he | he
        · rw [he] at hbeq
          exact absurd hbeq hk
        · exact List.any_eq_true.mpr ⟨kv2, he, hbeq⟩
      show (lookupA f (synthProps ((k, child) :: rest) required s).1).isSome = true
      simp only [synthProps]
      by_cases hcond : (inList k required || decide (nextRand s % 100 < 70)) = true
      · rw [if_pos hcond]
        simp only [lookupA, hk, Bool.false_eq_true, if_false]
        exact ih required _ f hf hany2
      · rw [if_neg hcond]
        exact ih required _ f hf hany2

theorem synthProps_mem :
    ∀ (props : List (String × SchemaNode)) (required : List String)
      (s : Nat) (f : String) (v : PyVal),
      (f, v) ∈ (synthProps props required s).1 →
      ∃ child s2, (f, child) ∈ props ∧ v = (synthesize child s2).1 := by
  intro props
  induction props with
  | nil =>
    intro required s f v hmem
    simp only [synthProps] at hmem
    cases hmem
  | cons kv rest ih =>
    intro required s f v hmem
    obtain ⟨k, child⟩ := kv
    simp only [synthProps] at hmem
    by_cases hcond : (inList k required || decide (nextRand s % 100 < 70)) = true
    · rw [if_pos hcond] at hmem
      rcases List.mem_cons.mp hmem with he | he
      · injection he with h1 h2
        subst h1
        exact ⟨child, nextRand s, List.mem_cons_self _ _, h2⟩
      · obtain ⟨c2, s3, hc2, hv⟩ := ih required _ f v he
        exact ⟨c2, s3, List.mem_cons_of_mem _ hc2, hv⟩
    · rw [if_neg hcond] at hmem
      obtain ⟨c2, s3, hc2, hv⟩ := ih required _ f v hmem
      exact ⟨c2, s3, List.mem_cons_of_mem _ hc2, hv⟩

theorem synth_fieldErrors (f : String) :
    ∀ (child : SchemaNode) (s : Nat), nodeOk child = true →
      fieldErrorsFS f (synthesize child s).1 (toFieldSchema child) = [] := by
  intro child s hok
  cases child with
  | ref p => simp [nodeOk] at hok
  | int lo hi =>
    simp [synthesize, fieldErrorsFS, toFieldSchema, typeChunk, enumChunk,
      formatChunk, validate_type]
  | num lo hi =>
    simp [synthesize, fieldErrorsFS, toFieldSchema, typeChunk, enumChunk,
      formatChunk, validate_type]
  | bool =>
    simp [synthesize, fieldErrorsFS, toFieldSchema, typeChunk, enumChunk,
      formatChunk, validate_type]
  | arr item lo hi =>
    simp [synthesize, fieldErrorsFS, toFieldSchema, typeChunk, enumChunk,
      formatChunk, validate_type]
  | obj props req =>
    simp [synthesize, fieldErrorsFS, toFieldSchema, typeChunk, enumChunk,
      formatChunk, validate_type]
  | unconstrained =>
    simp [synthesize, fieldErrorsFS, toFieldSchema, typeChunk, enumChunk,
      formatChunk]
  | str fmt enum =>
    cases enum with
    | none =>
      by_cases hdt : (fmt == some "date-time") = true
      · have hiso : pyFromisoformatOk (.str dtConst) = true := by decide
        simp [synthesize, hdt, fieldErrorsFS, toFieldSchema, typeChunk,
          enumChunk, formatChunk, validate_type, hiso]
      · by_cases hem : (fmt == some "email") = true
        · simp [synthesize, hdt, hem, fieldErrorsFS, toFieldSchema, typeChunk,
            enumChunk, formatChunk, validate_type]
        · by_cases huu : (fmt == some "uuid") = true
          · simp [synthesize, hdt, hem, huu, fieldErrorsFS, toFieldSchema,
              typeChunk, enumChunk, formatChunk, validate_type]
          · simp [synthesize, hdt, hem, huu, fieldErrorsFS, toFieldSchema,
              typeChunk, enumChunk, formatChunk, validate_type]
    | some es =>
      simp only [nodeOk, Bool.and_eq_true] at hok
      have hne : es.length ≠ 0 := by
        intro h
        rw [List.isEmpty_iff_length_eq_zero.mpr h] at hok
        exact absurd hok.1 (by simp)
      have hshape : (synthesize (.str fmt (some es)) s).1 =
          .str (es.get ⟨nextRand s % es.length,
            Nat.mod_lt _ (Nat.pos_of_ne_zero hne)⟩) := by
        simp [synthesize, hne]
      rw [hshape]
      set e := es.get ⟨nextRand s % es.length,
        Nat.mod_lt _ (Nat.pos_of_ne_zero hne)⟩ with hedef
      have hmem : e ∈ es := List.get_mem es _ _
      have hpm : pyMem (.str e) (es.map PyVal.str) = true :=
        List.any_eq_true.mpr ⟨.str e, List.mem_map_of_mem _ hmem,
          by simp [pyEq]⟩
      show (typeChunk f (.str e) (some "string") ++
        enumChunk f (.str e) (some (es.map PyVal.str)) ++
        formatChunk f (.str e) fmt) = []
      rw [show typeChunk f (.str e) (some "string") = [] by
        simp [typeChunk, validate_type]]
      rw [show enumChunk f (.str e) (some (es.map PyVal.str)) = [] by
        simp [enumChunk, hpm]]
      by_cases hdt : (fmt == some "date-time") = true
      · have hall : es.all isoOkStr = true := by
          rcases Bool.or_eq_true_iff.mp hok.2 with h2 | h2
          · rw [bne_iff_ne] at h2
            exact absurd (eq_of_beq hdt) h2
          · exact h2
        have hiso : pyFromisoformatOk (.str e) = true :=
          List.all_eq_true.mp hall e hmem
        simp [formatChunk, hdt, hiso]
      · simp [formatChunk, hdt]

/-- C4: synthesizing a value from a well-formed object schema (required a
subset of the declared properties, properties a mapping, each property node
sane — the data-model invariants of spec section 3) and validating the
synthesized value with SchemaValidator.validate_schema against the same
schema yields the empty error list: every required property is present and
every declared type, enum and format constraint is met. -/
theorem C4_synthesize_validates (props : List (String × SchemaNode))
    (required : List String) (seed : Nat)
    (hwf : objWF props required = true) :
    (synthesize (.obj props required) seed).1 =
      PyVal.obj (synthProps props required seed).1
    ∧ validate_schema (synthProps props required seed).1
        (toValidatorSchema props required) = [] := by
  unfold objWF at hwf
  rw [Bool.and_eq_true, Bool.and_eq_true] at hwf
  obtain ⟨⟨hreq, hnd⟩, hnodes⟩ := hwf
  constructor
  · simp [synthesize]
  · unfold validate_schema
    apply List.append_eq_nil.mpr
    constructor
    · apply List.map_eq_nil.mpr
      apply List.filter_eq_nil_iff.mpr
      intro g hg
      have hany : props.any (fun kv => kv.1 == g) = true :=
        List.all_eq_true.mp hreq g hg
      have hsome := synthProps_lookup_required props required seed g hg hany
      intro hno
      rw [Option.isNone_iff_eq_none] at hno
      rw [hno] at hsome
      simp at hsome
    · apply List.flatMap_eq_nil_iff.mpr
      intro kv hkv
      obtain ⟨g, v⟩ := kv
      obtain ⟨child, s2, hchild, hv⟩ :=
        synthProps_mem props required seed g v hkv
      have hlk : lookupA g props = some child := lookupA_of_nodup hnd hchild
      have hlk2 : lookupA g (toValidatorSchema props required).properties =
          some (toFieldSchema child) := by
        show lookupA g (props.map (fun kv => (kv.1, toFieldSchema kv.2))) = _
        rw [lookupA_map_snd, hlk]
        rfl
      have heq : fieldErrors g v (toValidatorSchema props required).properties =
          fieldErrorsFS g v (toFieldSchema child) := by
        unfold fieldErrors
        rw [hlk2]
      rw [heq, hv]
      exact synth_fieldErrors g child s2
        (List.all_eq_true.mp hnodes (g, child) hchild)

/-- C4 witness: a pet-like object schema with a required string name and an
optional integer age; the synthesized object validates cleanly against it
(seed 0 shown; the theorem covers every seed). -/
theorem C4_witness :
    objWF [("name", SchemaNode.str none none),
      ("age", SchemaNode.int none none)] ["name"] = true
    ∧ validate_schema
        (synthProps [("name", SchemaNode.str none none),
          ("age", SchemaNode.int none none)] ["name"] 0).1
        (toValidatorSchema [("name", SchemaNode.str none none),
          ("age", SchemaNode.int none none)] ["name"]) = [] := by
  refine ⟨by decide, ?_⟩
  exact (C4_synthesize_validates
    [("name", SchemaNode.str none none), ("age", SchemaNode.int none none)]
    ["name"] 0 (by decide)).2
